import Mathlib

/-!
Verification of the incremental document merge engine of the
`obsidian-kobo-highlights-import` plugin.

Documents are JavaScript strings; we embed them as `Str := List Char`
(a JS string is a sequence of UTF-16 units; every character occurring in
the merge engine's markers and formats is a single unit).  The source
functions begin by splitting the document on `'\n'` and end by joining
with `'\n'`; we model `String.prototype.split("\n")` and
`Array.prototype.join("\n")` explicitly (`splitNL`, `joinNL`) and work on
the line lists in between, exactly as the code does.

The JavaScript `Map<string, string>` is embedded as an association list
with JS `Map.set` semantics: an existing key is updated in place, a new
key is appended; `get`, `has`, `size`, iteration order all agree with the
JS map for lists built this way.
-/

namespace Kobo

/-- A JavaScript string: a list of characters. -/
abbrev Str := List Char

/-- JS whitespace (the `\s` class and the set trimmed by `String.prototype.trim`):
space, tab, LF, VT, FF, CR, NBSP, and the Unicode space separators. -/
def isWS (c : Char) : Bool :=
  let n := c.toNat
  n == 0x20 || n == 0x09 || n == 0x0A || n == 0x0B || n == 0x0C || n == 0x0D ||
  n == 0xA0 || n == 0x1680 || (decide (0x2000 ≤ n) && decide (n ≤ 0x200A)) ||
  n == 0x2028 || n == 0x2029 || n == 0x202F || n == 0x205F || n == 0x3000 ||
  n == 0xFEFF

/-- Left half of `String.prototype.trim`. -/
def trimLeft (s : Str) : Str := s.dropWhile isWS

/-- Right half of `String.prototype.trim`. -/
def trimRight (s : Str) : Str := (s.reverse.dropWhile isWS).reverse

/-- `String.prototype.trim`. -/
def trimS (s : Str) : Str := trimRight (trimLeft s)

/-- `String.prototype.split` with a one-character separator. -/
def splitCh (c : Char) : Str → List Str
  | [] => [[]]
  | a :: rest =>
    if a = c then [] :: splitCh c rest
    else
      match splitCh c rest with
      | x :: xs => (a :: x) :: xs
      | [] => [[a]]

/-- `content.split("\n")`. -/
def splitNL (s : Str) : List Str := splitCh '\n' s

/-- `lines.join("\n")`. -/
def joinNL : List Str → Str
  | [] => []
  | [a] => a
  | a :: rest => a ++ '\n' :: joinNL rest

/-- The machine-owned-region end marker token tested by `line.includes(...)`. -/
def endTok : Str := "kobo-highlights-end".toList

/-- The machine-owned-region start marker token tested by `line.includes(...)`. -/
def startTok : Str := "kobo-highlights-start".toList

/-- `line.match(/^##\s+/)`: two hash characters followed by at least one
whitespace character. -/
def isHeadingL (l : Str) : Bool :=
  match l with
  | '#' :: '#' :: c :: _ => isWS c
  | _ => false

/-- `line.replace(/^##\s+/, '').trim()`: drop the two hashes and the greedy
whitespace run, then trim. -/
def headingNameL (l : Str) : Str := trimS ((l.drop 2).dropWhile isWS)

/-- The reserved key for trailing user content. -/
def trailingKey : Str := "__trailing__".toList

/-! ### Association lists with JS `Map` semantics -/

/-- Entries of a JS `Map<string, string>` in iteration order. -/
abbrev AList := List (Str × Str)

/-- `map.get(k)` (`none` = `undefined`). -/
def lookupA : AList → Str → Option Str
  | [], _ => none
  | (k', v) :: rest, k => if k' = k then some v else lookupA rest k

/-- Unfolding lemma for `lookupA` on a cons cell. -/
theorem lookupA_cons (k₀ v₀ : Str) (rest : AList) (k : Str) :
    lookupA ((k₀, v₀) :: rest) k = if k₀ = k then some v₀ else lookupA rest k := rfl

/-- `map.has(k)`. -/
def containsA (m : AList) (k : Str) : Bool := (lookupA m k).isSome

/-- `map.set(k, v)`: update in place if present, else append. -/
def setA : AList → Str → Str → AList
  | [], k, v => [(k, v)]
  | (k', v') :: rest, k, v =>
    if k' = k then (k', v) :: rest else (k', v') :: setA rest k v

/-- `map.size`. -/
def sizeA (m : AList) : Nat := m.length

/-- Removing a key (used only to state that an entry is never consulted). -/
def eraseA (m : AList) (k : Str) : AList := m.filter (fun p => p.1 ≠ k)

/-! ### `extractUserContent` (src/modal/ExtractHighlightsModal.ts, lines 216-271)

State of the line loop: `currentChapter`, `afterAutoEnd`, `userLines`,
and the accumulated map. -/

structure EState where
  cur : Str
  afterEnd : Bool
  ulines : List Str
  acc : AList
deriving Repr, DecidableEq

/-- The flush performed when a chapter heading is encountered:
`if (currentChapter && userLines.length > 0) { const trimmed = userLines.join('\n').trim(); if (trimmed) userContent.set(currentChapter, trimmed); }`. -/
def flushChapter (st : EState) : AList :=
  if st.cur ≠ [] ∧ st.ulines ≠ [] then
    let t := trimS (joinNL st.ulines)
    if t ≠ [] then setA st.acc st.cur t else st.acc
  else st.acc

/-- One iteration of the `for (const line of lines)` loop of
`extractUserContent`. -/
def extractStep (st : EState) (line : Str) : EState :=
  if isHeadingL line then
    { cur := headingNameL line, afterEnd := false, ulines := [], acc := flushChapter st }
  else if endTok <:+: line then { st with afterEnd := true }
  else if startTok <:+: line then { st with afterEnd := false }
  else if st.afterEnd ∧ st.cur ≠ [] then { st with ulines := st.ulines ++ [line] }
  else st

/-- The flush after the loop: stores under the current chapter, or under
`'__trailing__'` when no chapter context exists. -/
def flushFinal (st : EState) : AList :=
  if st.ulines ≠ [] then
    let t := trimS (joinNL st.ulines)
    if t ≠ [] then
      if st.cur ≠ [] then setA st.acc st.cur t else setA st.acc trailingKey t
    else st.acc
  else st.acc

/-- `extractUserContent`, on the line list of the document. -/
def extractL (lines : List Str) : AList :=
  flushFinal (lines.foldl extractStep ⟨[], false, [], []⟩)

/-- `extractUserContent(existingContent)`. -/
def extractUserContentS (content : Str) : AList := extractL (splitNL content)

/-! ### `reinsertUserContent` (src/modal/ExtractHighlightsModal.ts, lines 277-310) -/

/-- The `for (const line of lines)` loop of `reinsertUserContent`: each line
is emitted, and after a line containing the end marker with a current
chapter set, the preserved block (if any, and truthy) is emitted preceded by
a blank line. -/
def reinsertGo (M : AList) : Str → List Str → List Str
  | _, [] => []
  | cur, l :: ls =>
    let cur' := if isHeadingL l then headingNameL l else cur
    let ins : List Str :=
      if endTok <:+: l ∧ cur' ≠ [] then
        match lookupA M cur' with
        | some b => if b ≠ [] then [[], b] else []
        | none => []
      else []
    l :: (ins ++ reinsertGo M cur' ls)

/-- The trailing emission after the loop (`if (trailing) { push(''); push(trailing) }`). -/
def trailingIns (M : AList) : List Str :=
  match lookupA M trailingKey with
  | some t => if t ≠ [] then [[], t] else []
  | none => []

/-- `reinsertUserContent`, on the line list of the generated document. -/
def reinsertL (G : List Str) (M : AList) : List Str :=
  reinsertGo M [] G ++ trailingIns M

/-- `reinsertUserContent(generatedContent, userContent)`. -/
def reinsertUserContentS (generated : Str) (M : AList) : Str :=
  joinNL (reinsertL (splitNL generated) M)

/-! ### Association-list lemmas -/

theorem lookupA_setA_self (m : AList) (k v : Str) :
    lookupA (setA m k v) k = some v := by
  induction m with
  | nil => simp [setA, lookupA]
  | cons p rest ih =>
    obtain ⟨k', v'⟩ := p
    by_cases h : k' = k
    · simp [setA, h, lookupA]
    · simp [setA, h, lookupA, ih]

theorem lookupA_setA_ne (m : AList) (k v k' : Str) (h : k' ≠ k) :
    lookupA (setA m k v) k' = lookupA m k' := by
  induction m with
  | nil =>
    have hne : ¬ (k = k') := fun hh => h hh.symm
    simp [setA, lookupA, hne]
  | cons p rest ih =>
    obtain ⟨k₀, v₀⟩ := p
    unfold setA
    by_cases h0 : k₀ = k
    · rw [if_pos h0]
      have hne : ¬ (k₀ = k') := fun hh => h (hh.symm.trans h0)
      unfold lookupA
      rw [if_neg hne, if_neg hne]
    · rw [if_neg h0]
      unfold lookupA
      by_cases h1 : k₀ = k'
      · rw [if_pos h1, if_pos h1]
      · rw [if_neg h1, if_neg h1, ih]

theorem containsA_setA (m : AList) (k v k' : Str) :
    containsA (setA m k v) k' = true ↔ k' = k ∨ containsA m k' = true := by
  by_cases h : k' = k
  · subst h
    simp [containsA, lookupA_setA_self]
  · simp [containsA, lookupA_setA_ne m k v k' h, h]

theorem containsA_eq_false_iff (m : AList) (k : Str) :
    containsA m k = false ↔ lookupA m k = none := by
  cases h : lookupA m k <;> simp [containsA, h]

theorem lookupA_eraseA_ne (m : AList) (k k' : Str) (h : k' ≠ k) :
    lookupA (eraseA m k) k' = lookupA m k' := by
  induction m with
  | nil => simp [eraseA, lookupA]
  | cons p rest ih =>
    obtain ⟨k₀, v₀⟩ := p
    by_cases h0 : k₀ = k
    · have he : eraseA ((k₀, v₀) :: rest) k = eraseA rest k := by
        simp [eraseA, h0]
      have hne : ¬ (k₀ = k') := fun hh => h (hh.symm.trans h0)
      rw [he, ih, lookupA_cons, if_neg hne]
    · have he : eraseA ((k₀, v₀) :: rest) k = (k₀, v₀) :: eraseA rest k := by
        simp [eraseA, h0]
      rw [he, lookupA_cons, lookupA_cons]
      by_cases h1 : k₀ = k'
      · rw [if_pos h1, if_pos h1]
      · rw [if_neg h1, if_neg h1, ih]

/-! ### `extractUserContent` lemmas -/

theorem extractStep_heading (st : EState) (l : Str) (h : isHeadingL l = true) :
    extractStep st l =
      ⟨headingNameL l, false, [], flushChapter st⟩ := by
  simp [extractStep, h]

theorem extractStep_end (st : EState) (l : Str) (h : isHeadingL l = false)
    (h2 : endTok <:+: l) :
    extractStep st l = { st with afterEnd := true } := by
  simp [extractStep, h, h2]

theorem extractStep_end_state (c : Str) (ae : Bool) (u : List Str) (a : AList)
    (l : Str) (h : isHeadingL l = false) (h2 : endTok <:+: l) :
    extractStep ⟨c, ae, u, a⟩ l = ⟨c, true, u, a⟩ := by
  simp [extractStep, h, h2]

/-- A line that is not a heading and does not contain the end token leaves a
state with `afterAutoEnd = false` unchanged. -/
theorem extractStep_quiet (st : EState) (l : Str) (h : isHeadingL l = false)
    (h2 : ¬ endTok <:+: l) (h3 : st.afterEnd = false) :
    extractStep st l = st := by
  by_cases h4 : startTok <:+: l
  · simp [extractStep, h, h2, h4, ← h3]
  · simp [extractStep, h, h2, h4, h3]

/-- A line that is neither a heading nor contains a marker token is collected
verbatim while `afterAutoEnd` is set and a chapter is current. -/
theorem extractStep_collect (st : EState) (l : Str) (h : isHeadingL l = false)
    (h2 : ¬ endTok <:+: l) (h3 : ¬ startTok <:+: l) (h4 : st.afterEnd = true)
    (h5 : st.cur ≠ []) :
    extractStep st l = { st with ulines := st.ulines ++ [l] } := by
  simp [extractStep, h, h2, h3, h4, h5]

theorem foldl_extractStep_quiet (B : List Str) (c : Str) (u : List Str) (a : AList)
    (hB : ∀ l ∈ B, isHeadingL l = false ∧ ¬ endTok <:+: l) :
    B.foldl extractStep ⟨c, false, u, a⟩ = ⟨c, false, u, a⟩ := by
  induction B with
  | nil => rfl
  | cons l rest ih =>
    have hl := hB l (by simp)
    have hst : extractStep ⟨c, false, u, a⟩ l = ⟨c, false, u, a⟩ :=
      extractStep_quiet _ _ hl.1 hl.2 rfl
    simp only [List.foldl_cons, hst]
    exact ih fun x hx => hB x (by simp [hx])

theorem foldl_extractStep_collect (H : List Str) (c : Str) (a : AList) (hc : c ≠ []) :
    ∀ u : List Str,
      (∀ l ∈ H, isHeadingL l = false ∧ ¬ endTok <:+: l ∧ ¬ startTok <:+: l) →
      H.foldl extractStep ⟨c, true, u, a⟩ = ⟨c, true, u ++ H, a⟩ := by
  induction H with
  | nil =>
    intro u _
    simp
  | cons l rest ih =>
    intro u hH
    have hl := hH l (by simp)
    have hst : extractStep ⟨c, true, u, a⟩ l = ⟨c, true, u ++ [l], a⟩ :=
      extractStep_collect _ _ hl.1 hl.2.1 hl.2.2 rfl hc
    simp only [List.foldl_cons, hst]
    rw [ih (u ++ [l]) (fun x hx => hH x (by simp [hx]))]
    simp

/-- Every key of `flushChapter st` is a key of the accumulator or the
current (necessarily non-empty) chapter name. -/
theorem flushChapter_keys (S : Str → Prop) (st : EState)
    (hcur : st.cur ≠ [] → S st.cur)
    (hacc : ∀ k, containsA st.acc k = true → S k) :
    ∀ k, containsA (flushChapter st) k = true → S k := by
  intro k hk
  simp only [flushChapter] at hk
  split_ifs at hk with h1 h2
  · rcases (containsA_setA _ _ _ _).1 hk with h | h
    · exact h ▸ hcur h1.1
    · exact hacc _ h
  · exact hacc _ hk
  · exact hacc _ hk

/-- Every key of the final flush is a key of the accumulator or the current
chapter name; the trailing branch is unreachable because collected lines
imply a current chapter. -/
theorem flushFinal_keys (S : Str → Prop) (st : EState)
    (hcur : st.cur ≠ [] → S st.cur)
    (hul : st.ulines ≠ [] → st.cur ≠ [])
    (hacc : ∀ k, containsA st.acc k = true → S k) :
    ∀ k, containsA (flushFinal st) k = true → S k := by
  intro k hk
  simp only [flushFinal] at hk
  split_ifs at hk with h1 h2 h3
  · rcases (containsA_setA _ _ _ _).1 hk with h | h
    · exact h ▸ hcur (hul h1)
    · exact hacc _ h
  · exact absurd (hul h1) h3
  · exact hacc _ hk
  · exact hacc _ hk

/-- Master invariant for `extractUserContent`: if every key of the
accumulator satisfies `S`, the current chapter (when set) satisfies `S`,
collected lines imply a current chapter, and every heading name of the
remaining lines satisfies `S`, then every key of the final map satisfies
`S`.  In particular the trailing-key branch of the final flush is
unreachable. -/
theorem extract_keys_master (S : Str → Prop) (L : List Str) :
    ∀ st : EState,
      (∀ l ∈ L, isHeadingL l = true → S (headingNameL l)) →
      (st.cur ≠ [] → S st.cur) →
      (st.ulines ≠ [] → st.cur ≠ []) →
      (∀ k, containsA st.acc k = true → S k) →
      ∀ k, containsA (flushFinal (L.foldl extractStep st)) k = true → S k := by
  induction L with
  | nil =>
    intro st _ hcur hul hacc
    exact flushFinal_keys S st hcur hul hacc
  | cons l rest ih =>
    intro st hL hcur hul hacc k hk
    simp only [List.foldl_cons] at hk
    by_cases hh : isHeadingL l = true
    · rw [extractStep_heading st l hh] at hk
      refine ih ⟨headingNameL l, false, [], flushChapter st⟩
        (fun x hx => hL x (by simp [hx])) (fun _ => hL l (by simp) hh)
        (by intro h; exact absurd rfl h)
        (flushChapter_keys S st hcur hacc) k hk
    · have hh' : isHeadingL l = false := by simpa using hh
      by_cases h2 : endTok <:+: l
      · rw [extractStep_end st l hh' h2] at hk
        exact ih { st with afterEnd := true }
          (fun x hx => hL x (by simp [hx])) hcur hul hacc k hk
      · by_cases h3 : startTok <:+: l
        · have hst : extractStep st l = { st with afterEnd := false } := by
            simp [extractStep, hh', h2, h3]
          rw [hst] at hk
          exact ih { st with afterEnd := false }
            (fun x hx => hL x (by simp [hx])) hcur hul hacc k hk
        · by_cases h4 : st.afterEnd = true ∧ st.cur ≠ []
          · have hst : extractStep st l = { st with ulines := st.ulines ++ [l] } :=
              extractStep_collect st l hh' h2 h3 h4.1 h4.2
            rw [hst] at hk
            exact ih { st with ulines := st.ulines ++ [l] }
              (fun x hx => hL x (by simp [hx])) hcur (fun _ => h4.2) hacc k hk
          · have hst : extractStep st l = st := by
              unfold extractStep
              simp only [hh', Bool.false_eq_true, if_false, h2, h3]
              simp [h4]
            rw [hst] at hk
            exact ih st (fun x hx => hL x (by simp [hx])) hcur hul hacc k hk

/-! ### Preservation of an already-stored block through the rest of the scan -/

theorem lookupA_flushChapter_ne (st : EState) (X : Str) (hcur : st.cur ≠ X) :
    lookupA (flushChapter st) X = lookupA st.acc X := by
  simp only [flushChapter]
  split_ifs with h1 h2
  · exact lookupA_setA_ne _ _ _ _ fun hh => hcur hh.symm
  · rfl
  · rfl

/-- After a block for chapter `X` has been stored, further lines whose
headings are never named `X` leave the entry untouched, including the final
flush. -/
theorem extract_preserve (X V : Str) (hX2 : X ≠ trailingKey) (L : List Str) :
    ∀ st : EState, lookupA st.acc X = some V → st.cur ≠ X →
      (∀ l ∈ L, isHeadingL l = true → headingNameL l ≠ X) →
      lookupA (flushFinal (L.foldl extractStep st)) X = some V := by
  induction L with
  | nil =>
    intro st hacc hcur _
    simp only [List.foldl_nil, flushFinal]
    split_ifs with h1 h2 h3
    · rw [lookupA_setA_ne _ _ _ _ fun hh => hcur hh.symm]
      exact hacc
    · rw [lookupA_setA_ne _ _ _ _ fun hh => hX2 hh]
      exact hacc
    · exact hacc
    · exact hacc
  | cons l rest ih =>
    intro st hacc hcur hL
    simp only [List.foldl_cons]
    by_cases hh : isHeadingL l = true
    · rw [extractStep_heading st l hh]
      refine ih ⟨headingNameL l, false, [], flushChapter st⟩ ?_ ?_
        (fun x hx => hL x (by simp [hx]))
      · rw [show EState.acc ⟨headingNameL l, false, [], flushChapter st⟩ = flushChapter st from rfl,
          lookupA_flushChapter_ne st X hcur]
        exact hacc
      · exact hL l (by simp) hh
    · have hh' : isHeadingL l = false := by simpa using hh
      by_cases h2 : endTok <:+: l
      · rw [extractStep_end st l hh' h2]
        exact ih { st with afterEnd := true } hacc hcur (fun x hx => hL x (by simp [hx]))
      · by_cases h3 : startTok <:+: l
        · have hst : extractStep st l = { st with afterEnd := false } := by
            simp [extractStep, hh', h2, h3]
          rw [hst]
          exact ih { st with afterEnd := false } hacc hcur (fun x hx => hL x (by simp [hx]))
        · by_cases h4 : st.afterEnd = true ∧ st.cur ≠ []
          · rw [extractStep_collect st l hh' h2 h3 h4.1 h4.2]
            exact ih { st with ulines := st.ulines ++ [l] } hacc hcur
              (fun x hx => hL x (by simp [hx]))
          · have hst : extractStep st l = st := by
              unfold extractStep
              simp only [hh', Bool.false_eq_true, if_false, h2, h3]
              simp [h4]
            rw [hst]
            exact ih st hacc hcur (fun x hx => hL x (by simp [hx]))

/-- `flushChapter` on a state with a non-empty chapter and a non-blank
collected block stores the trimmed block. -/
theorem flushChapter_set (c : Str) (ae : Bool) (u : List Str) (a : AList)
    (hc : c ≠ []) (hu : u ≠ []) (ht : trimS (joinNL u) ≠ []) :
    flushChapter ⟨c, ae, u, a⟩ = setA a c (trimS (joinNL u)) := by
  have hg : c ≠ [] ∧ u ≠ [] := ⟨hc, hu⟩
  simp only [flushChapter]
  split_ifs
  rfl

/-- `extractUserContent` on a document of the shape
`A ++ [h] ++ B ++ [e] ++ H ++ C`, where `h` is the heading of chapter `X`,
`B` is the machine-owned part (no headings, no end marker), `e` carries the
end marker, `H` is the user block, and `C` is the rest of the document
(empty, or starting with the next heading, and never mentioning `X` again),
maps `X` to the trimmed user block. -/
theorem extractL_block (A : List Str) (h : Str) (B : List Str) (e : Str)
    (H C : List Str) (X : Str)
    (hh : isHeadingL h = true) (hname : headingNameL h = X)
    (hX1 : X ≠ []) (hX2 : X ≠ trailingKey)
    (hB : ∀ l ∈ B, isHeadingL l = false ∧ ¬ endTok <:+: l)
    (he1 : isHeadingL e = false) (he2 : endTok <:+: e)
    (hH : ∀ l ∈ H, isHeadingL l = false ∧ ¬ endTok <:+: l ∧ ¬ startTok <:+: l)
    (hC : C = [] ∨ ∃ h₂ C2, C = h₂ :: C2 ∧ isHeadingL h₂ = true)
    (hCX : ∀ l ∈ C, isHeadingL l = true → headingNameL l ≠ X)
    (hHne : trimS (joinNL H) ≠ []) :
    lookupA (extractL (A ++ h :: (B ++ e :: (H ++ C)))) X =
      some (trimS (joinNL H)) := by
  have hHnil : H ≠ [] := by
    intro hcon
    apply hHne
    rw [hcon]
    rfl
  unfold extractL
  rw [List.foldl_append]
  set st1 := A.foldl extractStep ⟨[], false, [], []⟩ with hst1
  rw [List.foldl_cons, extractStep_heading st1 h hh, hname, List.foldl_append,
    foldl_extractStep_quiet B X [] (flushChapter st1) hB, List.foldl_cons,
    extractStep_end_state X false [] (flushChapter st1) e he1 he2]
  have hcollect :
      H.foldl extractStep ⟨X, true, [], flushChapter st1⟩ =
        ⟨X, true, H, flushChapter st1⟩ := by
    have := foldl_extractStep_collect H X (flushChapter st1) hX1 [] hH
    simpa using this
  rw [List.foldl_append, hcollect]
  rcases hC with hCe | ⟨h₂, C2, hCc, hh₂⟩
  · subst hCe
    simp only [List.foldl_nil, flushFinal]
    split_ifs
    exact lookupA_setA_self _ _ _
  · subst hCc
    rw [List.foldl_cons, extractStep_heading _ h₂ hh₂,
      flushChapter_set X true H (flushChapter st1) hX1 hHnil hHne]
    refine extract_preserve X (trimS (joinNL H)) hX2 C2
      ⟨headingNameL h₂, false, [], setA (flushChapter st1) X (trimS (joinNL H))⟩
      (lookupA_setA_self _ _ _) (hCX h₂ (by simp) hh₂)
      (fun x hx => hCX x (by simp [hx]))

/-! ### `reinsertUserContent` lemmas -/

/-- The chapter tracked by the reinsertion loop after processing `L`. -/
def chapAfter (cur : Str) (L : List Str) : Str :=
  L.foldl (fun c l => if isHeadingL l then headingNameL l else c) cur

theorem chapAfter_nil (cur : Str) : chapAfter cur [] = cur := rfl

theorem chapAfter_noHeading (cur : Str) (L : List Str)
    (h : ∀ l ∈ L, isHeadingL l = false) : chapAfter cur L = cur := by
  induction L generalizing cur with
  | nil => rfl
  | cons l rest ih =>
    have hl : isHeadingL l = false := h l (by simp)
    simp only [chapAfter, List.foldl_cons, hl, Bool.false_eq_true, if_false]
    exact ih cur fun x hx => h x (by simp [hx])

theorem reinsertGo_append (M : AList) (L1 L2 : List Str) :
    ∀ cur, reinsertGo M cur (L1 ++ L2) =
      reinsertGo M cur L1 ++ reinsertGo M (chapAfter cur L1) L2 := by
  induction L1 with
  | nil => intro cur; rfl
  | cons l rest ih =>
    intro cur
    simp only [List.cons_append, reinsertGo, List.append_eq]
    rw [ih]
    simp only [chapAfter, List.foldl_cons, List.cons_append, List.append_assoc]

theorem reinsertGo_quiet (M : AList) (L : List Str)
    (h : ∀ l ∈ L, isHeadingL l = false ∧ ¬ endTok <:+: l) :
    ∀ cur, reinsertGo M cur L = L := by
  induction L with
  | nil => intro cur; rfl
  | cons l rest ih =>
    intro cur
    have hl := h l (by simp)
    simp only [reinsertGo, hl.1, Bool.false_eq_true, if_false, hl.2,
      false_and, List.nil_append]
    rw [ih (fun x hx => h x (by simp [hx])) cur]

theorem reinsertGo_endline (M : AList) (cur : Str) (e : Str)
    (h1 : isHeadingL e = false) (h2 : endTok <:+: e) (h3 : cur ≠ [])
    (b : Str) (h4 : lookupA M cur = some b) (h5 : b ≠ []) :
    reinsertGo M cur [e] = [e, [], b] := by
  simp [reinsertGo, h1, h2, h3, h4, h5]

/-- An entry keyed to a chapter whose (trimmed) name never occurs as a
heading of the walked lines is never consulted: erasing it does not change
the output. -/
theorem reinsertGo_eraseA (M : AList) (Y : Str) (L : List Str) :
    ∀ cur, cur ≠ Y →
      (∀ l ∈ L, isHeadingL l = true → headingNameL l ≠ Y) →
      reinsertGo (eraseA M Y) cur L = reinsertGo M cur L := by
  induction L with
  | nil => intro cur _ _; rfl
  | cons l rest ih =>
    intro cur hcur hL
    have hcur' : (if isHeadingL l then headingNameL l else cur) ≠ Y := by
      split_ifs with hh
      · exact hL l (by simp) hh
      · exact hcur
    simp only [reinsertGo]
    rw [lookupA_eraseA_ne M Y _ hcur', ih _ hcur' (fun x hx => hL x (by simp [hx]))]

theorem trailingIns_eraseA (M : AList) (Y : Str) (hY : Y ≠ trailingKey) :
    trailingIns (eraseA M Y) = trailingIns M := by
  simp only [trailingIns]
  rw [lookupA_eraseA_ne M Y trailingKey fun hh => hY hh.symm]

/-- Unfolding of one reinsertion step on a line carrying the end marker,
with the current chapter set and a non-empty preserved block. -/
theorem reinsertGo_cons_end (M : AList) (cur : Str) (e : Str) (L : List Str)
    (h1 : isHeadingL e = false) (h2 : endTok <:+: e) (h3 : cur ≠ [])
    (b : Str) (h4 : lookupA M cur = some b) (h5 : b ≠ []) :
    reinsertGo M cur (e :: L) = e :: [] :: b :: reinsertGo M cur L := by
  simp [reinsertGo, h1, h2, h3, h4, h5]

/-! ### Claim C1: preservation of human-authored blocks -/

/-- **C1**.  Preservation.  The existing document is
`A ++ [h] ++ B ++ [e] ++ H ++ C`: after chapter `X`'s heading `h` comes a
machine-owned part `B` (no headings, no end-marker line), the end-marker
line `e`, the human-authored block `H` (no headings, no marker lines,
trimming to a non-empty block), and the rest `C` of the document (empty or
starting with the next level-2 heading, and with no further heading named
`X`).  The freshly generated document is `P ++ [g] ++ Q ++ [eG] ++ R` with
`g` a heading whose trimmed name equals `X` and `eG` a later end-marker
line (no heading or end marker in between).  Then
`reinsertUserContent(G, extractUserContent(D))` contains the block
`trimS (joinNL H)` verbatim, immediately after `eG`, preceded by one blank
line.  Moreover a block of any map `M₀` keyed to a chapter `Y` with no
matching heading in `G` is never consulted: erasing it leaves the output
unchanged. -/
theorem claim_C1_preservation
    (A : List Str) (h : Str) (B : List Str) (e : Str) (H C : List Str)
    (P : List Str) (g : Str) (Q : List Str) (eG : Str) (R : List Str)
    (X : Str) (M₀ : AList) (Y : Str)
    (hh : isHeadingL h = true) (hname : headingNameL h = X)
    (hX1 : X ≠ []) (hX2 : X ≠ trailingKey)
    (hB : ∀ l ∈ B, isHeadingL l = false ∧ ¬ endTok <:+: l)
    (he1 : isHeadingL e = false) (he2 : endTok <:+: e)
    (hH : ∀ l ∈ H, isHeadingL l = false ∧ ¬ endTok <:+: l ∧ ¬ startTok <:+: l)
    (hC : C = [] ∨ ∃ h₂ C2, C = h₂ :: C2 ∧ isHeadingL h₂ = true)
    (hCX : ∀ l ∈ C, isHeadingL l = true → headingNameL l ≠ X)
    (hHne : trimS (joinNL H) ≠ [])
    (hg : isHeadingL g = true) (hgname : headingNameL g = X)
    (hQ : ∀ l ∈ Q, isHeadingL l = false ∧ ¬ endTok <:+: l)
    (heG1 : isHeadingL eG = false) (heG2 : endTok <:+: eG)
    (hY0 : Y ≠ []) (hY1 : Y ≠ trailingKey)
    (hYG : ∀ l ∈ P ++ g :: (Q ++ eG :: R), isHeadingL l = true → headingNameL l ≠ Y) :
    (∃ A2 B2,
      reinsertL (P ++ g :: (Q ++ eG :: R)) (extractL (A ++ h :: (B ++ e :: (H ++ C)))) =
        A2 ++ eG :: [] :: trimS (joinNL H) :: B2) ∧
    reinsertL (P ++ g :: (Q ++ eG :: R)) (eraseA M₀ Y) =
      reinsertL (P ++ g :: (Q ++ eG :: R)) M₀ := by
  constructor
  · have hM : lookupA (extractL (A ++ h :: (B ++ e :: (H ++ C)))) X =
        some (trimS (joinNL H)) :=
      extractL_block A h B e H C X hh hname hX1 hX2 hB he1 he2 hH hC hCX hHne
    set M := extractL (A ++ h :: (B ++ e :: (H ++ C))) with hMdef
    set ins : List Str :=
      (if endTok <:+: g ∧ X ≠ [] then
        match lookupA M X with
        | some b => if b ≠ [] then [[], b] else []
        | none => []
      else []) with hins
    have h2 : reinsertGo M (chapAfter [] P) (g :: (Q ++ eG :: R)) =
        g :: (ins ++ reinsertGo M X (Q ++ eG :: R)) := by
      simp only [reinsertGo, hg, if_true, hgname, hins]
    have h3 : reinsertGo M X (Q ++ eG :: R) = Q ++ reinsertGo M X (eG :: R) := by
      rw [reinsertGo_append M Q (eG :: R) X,
        chapAfter_noHeading X Q (fun l hl => (hQ l hl).1),
        reinsertGo_quiet M Q hQ X]
    have h4 : reinsertGo M X (eG :: R) = eG :: [] :: trimS (joinNL H) :: reinsertGo M X R :=
      reinsertGo_cons_end M X eG R heG1 heG2 hX1 _ hM hHne
    refine ⟨reinsertGo M [] P ++ g :: (ins ++ Q), reinsertGo M X R ++ trailingIns M, ?_⟩
    rw [reinsertL, reinsertGo_append M P (g :: (Q ++ eG :: R)) [], h2, h3, h4]
    simp [List.append_assoc]
  · rw [reinsertL, reinsertL,
      reinsertGo_eraseA M₀ Y (P ++ g :: (Q ++ eG :: R)) [] (fun hc => hY0 hc.symm) hYG,
      trailingIns_eraseA M₀ Y hY1]

/-! ### Claim C7: re-emission count of a preserved block -/

/-- The number of lines of `L` that carry the end-marker token while the
tracked current chapter equals `X` (chapter tracking as in
`reinsertUserContent`). -/
def endHits (X : Str) : Str → List Str → Nat
  | _, [] => 0
  | cur, l :: ls =>
    let cur' := if isHeadingL l then headingNameL l else cur
    (if endTok <:+: l ∧ cur' = X then 1 else 0) + endHits X cur' ls

/-- **C7**, amended.  The block `b` stored under chapter `X` appears in the
output of `reinsertUserContent` exactly as many times as there are
end-marker lines of `G` at which `X` is the tracked current chapter: one
emission per qualifying end-marker line, so exactly once when that count is
1, zero times when no end-marker line follows `X`'s heading (even though
the heading exists), and several times when several qualify.  (`b` is
assumed non-empty, not a line of `G`, and not the value of any other key of
the map.) -/
theorem claim_C7_count (G : List Str) (M : AList) (X b : Str)
    (hX1 : X ≠ []) (hXt : X ≠ trailingKey)
    (hM : lookupA M X = some b) (hb : b ≠ [])
    (hbG : ∀ l ∈ G, l ≠ b)
    (huniq : ∀ k v, lookupA M k = some v → v = b → k = X) :
    List.count b (reinsertL G M) = endHits X [] G := by
  have hob : ¬ (([] : Str) = b) := fun hcon => hb hcon.symm
  have htrail : List.count b (trailingIns M) = 0 := by
    rw [List.count_eq_zero]
    intro hmem
    unfold trailingIns at hmem
    cases htk : lookupA M trailingKey with
    | none =>
      rw [htk] at hmem
      simp at hmem
    | some t =>
      rw [htk] at hmem
      have hmem2 : b ∈ (if t ≠ [] then ([[], t] : List Str) else []) := hmem
      have htne : t ≠ b := fun hcon => hXt ((huniq trailingKey t htk hcon).symm)
      by_cases h5 : t ≠ []
      · rw [if_pos h5] at hmem2
        simp at hmem2
        rcases hmem2 with hmem2 | hmem2
        · exact hob hmem2.symm
        · exact htne hmem2.symm
      · rw [if_neg h5] at hmem2
        simp at hmem2
  have main : ∀ (L : List Str) (cur : Str), (∀ l ∈ L, l ≠ b) →
      List.count b (reinsertGo M cur L) = endHits X cur L := by
    intro L
    induction L with
    | nil =>
      intro cur _
      simp [reinsertGo, endHits]
    | cons l ls ih =>
      intro cur hL
      have hlb : l ≠ b := hL l (by simp)
      simp only [reinsertGo, endHits]
      set cur' := if isHeadingL l then headingNameL l else cur with hcur'
      have hrest := ih cur' (fun x hx => hL x (by simp [hx]))
      have hinsc : List.count b
          (if endTok <:+: l ∧ cur' ≠ [] then
            match lookupA M cur' with
            | some bb => if bb ≠ [] then [[], bb] else []
            | none => []
          else []) = if endTok <:+: l ∧ cur' = X then 1 else 0 := by
      
        by_cases hhit : endTok <:+: l ∧ cur' = X
        · have hcnd : endTok <:+: l ∧ cur' ≠ [] := ⟨hhit.1, hhit.2 ▸ hX1⟩
          rw [if_pos hcnd, if_pos hhit, hhit.2, hM]
          simp [List.count_cons, hob, hb]
        · rw [if_neg hhit]
          by_cases hcnd : endTok <:+: l ∧ cur' ≠ []
          · rw [if_pos hcnd]
            cases hlk : lookupA M cur' with
            | none => simp
            | some v =>
              have hvb : v ≠ b := fun hcon => hhit ⟨hcnd.1, huniq cur' v hlk hcon⟩
              by_cases h6 : v ≠ []
              · simp [h6, List.count_cons, hvb, hob, hb]
              · simp [h6]
          · rw [if_neg hcnd]
            simp
      rw [List.count_cons, List.count_append, hinsc, hrest]
      simp [hlb]
  rw [reinsertL, List.count_append, htrail, main G [] hbG]
  omega

/-- **C7**, counterexample to the claim as stated: in the generated document
`["## A"]` the chapter heading `A` exists, the map carries the non-empty
block `"note"` for `A`, yet the block appears zero times in the output
because no end-marker line follows the heading. -/
theorem claim_C7_cex :
    isHeadingL ("## A".toList) = true ∧
    lookupA [("A".toList, "note".toList)] ("A".toList) = some ("note".toList) ∧
    List.count ("note".toList)
      (reinsertL ["## A".toList] [("A".toList, "note".toList)]) = 0 := by
  decide

/-- Witness for `claim_C7_count` at a concrete one-chapter document with a
single end-marker line. -/
theorem claim_C7_count_witness :
    List.count ("note".toList)
      (reinsertL ["## A".toList, "%% kobo-highlights-end %%".toList]
        [("A".toList, "note".toList)]) =
      endHits ("A".toList) []
        ["## A".toList, "%% kobo-highlights-end %%".toList] :=
  claim_C7_count ["## A".toList, "%% kobo-highlights-end %%".toList]
    [("A".toList, "note".toList)] ("A".toList) ("note".toList)
    (by decide) (by decide) (by decide) (by decide) (by decide)
    (by
      intro k v hkv hvb
      by_cases hk : ("A".toList : Str) = k
      · exact hk.symm
      · rw [lookupA_cons, if_neg hk] at hkv
        exact absurd hkv (by simp [lookupA]))

/-! ### Claim C9: keys of the extracted map -/

/-- **C9**, amended.  Every key of the map returned by
`extractUserContent` is the trimmed name of some level-2 heading line of
the input (lines are collected only while a current chapter is set, so the
no-chapter flush branch producing `'__trailing__'` is unreachable); hence
the reserved `'__trailing__'` key is absent whenever no heading of the
input is literally named `__trailing__`. -/
theorem claim_C9_keys (lines : List Str) :
    (∀ k, containsA (extractL lines) k = true →
      ∃ l ∈ lines, isHeadingL l = true ∧ headingNameL l = k) ∧
    ((∀ l ∈ lines, isHeadingL l = true → headingNameL l ≠ trailingKey) →
      lookupA (extractL lines) trailingKey = none) := by
  have hmaster := extract_keys_master
    (fun k => ∃ l ∈ lines, isHeadingL l = true ∧ headingNameL l = k) lines
    ⟨[], false, [], []⟩ (fun l hl hh => ⟨l, hl, hh, rfl⟩)
    (fun hc => absurd rfl hc) (fun hu => absurd rfl hu)
    (fun k hk => by simp [containsA, lookupA] at hk)
  constructor
  · intro k hk
    exact hmaster k hk
  · intro hno
    cases hcase : lookupA (extractL lines) trailingKey with
    | none => rfl
    | some v =>
      obtain ⟨l, hl, hh, hnm⟩ := hmaster trailingKey
        (by
          show containsA (extractL lines) trailingKey = true
          simp [containsA, hcase])
      exact absurd hnm (hno l hl hh)

/-- **C9**, counterexample to the claim as stated: a document whose chapter
heading is literally named `__trailing__` produces the reserved key (via the
ordinary chapter flush, not the unreachable no-chapter branch). -/
theorem claim_C9_cex :
    lookupA (extractL ["## __trailing__".toList,
      "%% kobo-highlights-end %%".toList, "x".toList]) trailingKey =
      some ("x".toList) := by
  decide

/-- Witness for `claim_C9_keys` at a concrete document. -/
theorem claim_C9_keys_witness :
    (∃ l ∈ ["## A".toList, "%% kobo-highlights-end %%".toList, "note".toList],
      isHeadingL l = true ∧ headingNameL l = "A".toList) ∧
    lookupA (extractL ["## A".toList, "%% kobo-highlights-end %%".toList,
      "note".toList]) trailingKey = none :=
  ⟨(claim_C9_keys _).1 ("A".toList) (by decide),
   (claim_C9_keys _).2 (by decide)⟩

/-- Witness for `claim_C1_preservation` at a concrete pair of documents. -/
theorem claim_C1_witness :
    (∃ A2 B2,
      reinsertL (["## Ch".toList] ++ ["%% kobo-highlights-start %%".toList] ++
          ["%% kobo-highlights-end %%".toList])
        (extractL (["## Ch".toList] ++ ["%% kobo-highlights-end %%".toList] ++
          ["my note".toList])) =
        A2 ++ "%% kobo-highlights-end %%".toList :: [] ::
          trimS (joinNL ["my note".toList]) :: B2) ∧
    reinsertL (["## Ch".toList] ++ ["%% kobo-highlights-start %%".toList] ++
        ["%% kobo-highlights-end %%".toList])
      (eraseA [("Gone".toList, "g".toList)] ("Gone".toList)) =
    reinsertL (["## Ch".toList] ++ ["%% kobo-highlights-start %%".toList] ++
        ["%% kobo-highlights-end %%".toList]) [("Gone".toList, "g".toList)] := by
  have h := claim_C1_preservation
    [] ("## Ch".toList) [] ("%% kobo-highlights-end %%".toList)
    ["my note".toList] []
    [] ("## Ch".toList) ["%% kobo-highlights-start %%".toList]
    ("%% kobo-highlights-end %%".toList) []
    ("Ch".toList) [("Gone".toList, "g".toList)] ("Gone".toList)
    (by decide) (by decide) (by decide) (by decide) (by decide) (by decide)
    (by decide) (by decide) (Or.inl rfl) (by decide) (by decide) (by decide)
    (by decide) (by decide) (by decide) (by decide) (by decide) (by decide)
    (by decide)
  simpa using h

/-! ### `parseExistingDefinitions` (src/modal/ExtractHighlightsModal.ts, lines 195-208)

The source runs the sticky regex `/^-\s+(.+?)\s+:::\s+(.+)$/gm` over the
whole document.  With the `m` flag the anchors `^`/`$` match at line
boundaries and `.` never matches a newline, so each match lies within a
single line and each line yields at most one match (the second capture
extends to the end of the line).  We therefore model the scan per line of
`split("\n")`.  The matcher below reproduces the engine's backtracking
order on a single (newline-free) line: the `\s+` runs are greedy (longest
first, the run after `-` backtracks character by character), `(.+?)` is
lazy (shortest first), `:::` is literal, and the final `\s+` gives back one
character when `(.+)$` would otherwise be empty. -/

/-- Matching `\s+:::\s+(.+)$` against the suffix `s` following the lazy
group; returns the second capture. -/
def matchAfterTerm (s : Str) : Option Str :=
  let w2 := s.takeWhile isWS
  if w2 = [] then none
  else
    let s1 := s.dropWhile isWS
    if (":::".toList).isPrefixOf s1 then
      let s2 := s1.drop 3
      let w3 := s2.takeWhile isWS
      if w3 = [] then none
      else
        let rest := s2.dropWhile isWS
        if rest ≠ [] then some rest
        else
          match w3.reverse with
          | c :: _ :: _ => some [c]
          | _ => none
    else none

/-- The lazy group `(.+?)`: grow the candidate term one character at a time
and try the rest of the pattern after each growth step. -/
def tryTerm : Str → Str → Option (Str × Str)
  | _, [] => none
  | a, c :: rest =>
    match matchAfterTerm rest with
    | some d => some (a ++ [c], d)
    | none => tryTerm (a ++ [c]) rest

/-- Backtracking of the greedy `\s+` after `-`: the argument is the
whitespace run in reverse; on failure the last run character is returned to
the input. -/
def tryW1Rev : Str → Str → Option (Str × Str)
  | [], _ => none
  | c :: rw1, s =>
    match tryTerm [] s with
    | some r => some r
    | none => if rw1 = [] then none else tryW1Rev rw1 (c :: s)

/-- One line matched against `^-\s+(.+?)\s+:::\s+(.+)$`. -/
def parseVocabLine (l : Str) : Option (Str × Str) :=
  match l with
  | c :: rest =>
    if c = '-' then
      if rest.takeWhile isWS = [] then none
      else tryW1Rev (rest.takeWhile isWS).reverse (rest.dropWhile isWS)
    else none
  | [] => none

/-- One iteration of the `while ((match = vocabularyRegex.exec(content)))`
loop: a matching line stores its trimmed captures, any other line is
skipped. -/
def parseLineStep (m : AList) (l : Str) : AList :=
  match parseVocabLine l with
  | some (t, d) => setA m (trimS t) (trimS d)
  | none => m

/-- `parseExistingDefinitions`, on the line list of the document. -/
def parseExistingDefinitionsL (lines : List Str) : AList :=
  lines.foldl parseLineStep []

/-- `parseExistingDefinitions(content, definitions)` starting from an empty
map (as `writeBooks` does). -/
def parseExistingDefinitionsS (content : Str) : AList :=
  parseExistingDefinitionsL (splitNL content)

/-! ### List helper lemmas -/

/-- A string all of whose characters are JS whitespace. -/
def allWS (w : Str) : Prop := ∀ c ∈ w, isWS c = true

instance allWS.dec (w : Str) : Decidable (allWS w) := by
  unfold allWS
  infer_instance

theorem takeWhile_append_all (p : Char → Bool) (A B : Str)
    (hA : ∀ a ∈ A, p a = true) :
    (A ++ B).takeWhile p = A ++ B.takeWhile p := by
  induction A with
  | nil => simp
  | cons a A ih =>
    have ha : p a = true := hA a (by simp)
    simp only [List.cons_append, List.takeWhile_cons, ha, if_true]
    rw [ih fun x hx => hA x (by simp [hx])]

theorem dropWhile_append_all (p : Char → Bool) (A B : Str)
    (hA : ∀ a ∈ A, p a = true) :
    (A ++ B).dropWhile p = B.dropWhile p := by
  induction A with
  | nil => simp
  | cons a A ih =>
    have ha : p a = true := hA a (by simp)
    simp only [List.cons_append, List.dropWhile_cons, ha, if_true]
    exact ih fun x hx => hA x (by simp [hx])

theorem splitCh_ne_nil (c : Char) (s : Str) : splitCh c s ≠ [] := by
  induction s with
  | nil => simp [splitCh]
  | cons a rest ih =>
    by_cases h : a = c
    · simp [splitCh, h]
    · simp only [splitCh, h, if_false]
      cases hs : splitCh c rest with
      | nil => exact absurd hs ih
      | cons x xs => simp

theorem splitCh_sep_append (c : Char) (A B : Str) :
    splitCh c (A ++ c :: B) = splitCh c A ++ splitCh c B := by
  induction A with
  | nil => simp [splitCh]
  | cons a A ih =>
    by_cases h : a = c
    · simp [splitCh, h, ih]
    · simp only [List.cons_append, splitCh, h, if_false, List.append_eq]
      rw [ih]
      cases hs : splitCh c A with
      | nil => exact absurd hs (splitCh_ne_nil c A)
      | cons x xs =>
        simp

theorem splitCh_no_sep (c : Char) (s : Str) (h : c ∉ s) : splitCh c s = [s] := by
  induction s with
  | nil => rfl
  | cons a rest ih =>
    have ha : ¬ (a = c) := fun hc => h (by simp [hc])
    simp only [splitCh, ha, if_false]
    rw [ih fun hc => h (by simp [hc])]

theorem splitCh_head_pre (c : Char) (s : Str) :
    ∀ x xs, splitCh c s = x :: xs → x <+: s := by
  induction s with
  | nil =>
    intro x xs hs
    simp [splitCh] at hs
    simp [hs.1]
  | cons a rest ih =>
    intro x xs hs
    by_cases h : a = c
    · simp only [splitCh, h, if_true] at hs
      injection hs with h1 _
      simp [← h1]
    · simp only [splitCh, h, if_false] at hs
      cases hs2 : splitCh c rest with
      | nil => exact absurd hs2 (splitCh_ne_nil c rest)
      | cons x2 xs2 =>
        rw [hs2] at hs
        injection hs with h1 h2
        rw [← h1]
        exact List.cons_prefix_cons.mpr ⟨rfl, ih x2 xs2 hs2⟩

theorem mem_splitCh_isInf (c : Char) (s : Str) (p : Str) (hp : p ∈ splitCh c s) :
    p <:+: s := by
  induction s generalizing p with
  | nil =>
    simp [splitCh] at hp
    simp [hp]
  | cons a rest ih =>
    by_cases h : a = c
    · simp only [splitCh, h, if_true, List.mem_cons] at hp
      rcases hp with hp | hp
      · simp [hp]
      · exact List.infix_cons (ih p hp)
    · simp only [splitCh, h, if_false] at hp
      cases hs : splitCh c rest with
      | nil => exact absurd hs (splitCh_ne_nil c rest)
      | cons x xs =>
        rw [hs] at hp
        simp only [List.mem_cons] at hp
        rcases hp with hp | hp
        · subst hp
          exact List.IsPrefix.isInfix
            (List.cons_prefix_cons.mpr ⟨rfl, splitCh_head_pre c rest x xs hs⟩)
        · exact List.infix_cons (ih p (by simp [hs, hp]))

theorem prefix_head_piece (c : Char) :
    ∀ (t rest : Str), c ∉ t → t <+: rest →
      ∀ x xs, splitCh c rest = x :: xs → t <+: x := by
  intro t
  induction t with
  | nil =>
    intro rest _ _ x xs _
    exact List.nil_prefix
  | cons t1 t2 ih =>
    intro rest hc hpre x xs hs
    rcases rest with _ | ⟨r0, rest2⟩
    · rcases hpre with ⟨w, hw⟩
      simp at hw
    · have h1 := List.cons_prefix_cons.mp hpre
      have hr0c : ¬ (r0 = c) := fun hh =>
        hc (List.mem_cons.mpr (Or.inl (h1.1.trans hh).symm))
      cases hs2 : splitCh c rest2 with
      | nil => exact absurd hs2 (splitCh_ne_nil c rest2)
      | cons x2 xs2 =>
        have hform : splitCh c (r0 :: rest2) = (r0 :: x2) :: xs2 := by
          simp [splitCh, hr0c, hs2]
        rw [hform] at hs
        injection hs with hx hxs
        rw [← hx]
        exact List.cons_prefix_cons.mpr
          ⟨h1.1, ih rest2 (fun hm => hc (by simp [hm])) h1.2 x2 xs2 hs2⟩

/-- An infix that contains no separator character lies within one of the
separator-free runs produced by `splitCh`. -/
theorem isInf_splitCh (c : Char) (tok : Str) (hc : c ∉ tok) :
    ∀ s : Str, tok <:+: s → ∃ p ∈ splitCh c s, tok <:+: p := by
  intro s
  induction s with
  | nil =>
    intro h
    exact ⟨[], by simp [splitCh], h⟩
  | cons a rest ih =>
    intro h
    rcases List.infix_cons_iff.mp h with hpre | hinf
    · rcases htok : tok with _ | ⟨t0, tok2⟩
      · obtain ⟨x, xs, hs⟩ : ∃ x xs, splitCh c (a :: rest) = x :: xs := by
          cases hs : splitCh c (a :: rest) with
          | nil => exact absurd hs (splitCh_ne_nil c _)
          | cons x xs => exact ⟨x, xs, rfl⟩
        exact ⟨x, by simp [hs], by simp⟩
      · subst htok
        have h1 := List.cons_prefix_cons.mp hpre
        have hac : ¬ (a = c) := fun hh =>
          hc (List.mem_cons.mpr (Or.inl (h1.1.trans hh).symm))
        cases hs : splitCh c rest with
        | nil => exact absurd hs (splitCh_ne_nil c rest)
        | cons x xs =>
          have hx : tok2 <+: x :=
            prefix_head_piece c tok2 rest (fun hm => hc (by simp [hm])) h1.2 x xs hs
          refine ⟨a :: x, by simp [splitCh, hac, hs], ?_⟩
          exact List.IsPrefix.isInfix (List.cons_prefix_cons.mpr ⟨h1.1, hx⟩)
    · obtain ⟨p, hp, hpi⟩ := ih hinf
      by_cases hac : a = c
      · subst hac
        exact ⟨p, by simp [splitCh, hp], hpi⟩
      · cases hs : splitCh c rest with
        | nil => exact absurd hs (splitCh_ne_nil c rest)
        | cons x xs =>
          rw [hs] at hp
          rcases List.mem_cons.mp hp with hp2 | hp2
          · refine ⟨a :: x, by simp [splitCh, hac, hs], ?_⟩
            exact (hp2 ▸ hpi).trans (List.IsSuffix.isInfix (List.suffix_cons a x))
          · exact ⟨p, by simp [splitCh, hac, hs, hp2], hpi⟩

/-- Joining newline-free lines and splitting again is the identity. -/
theorem splitNL_joinNL (L : List Str) (hL : ∀ l ∈ L, ('\n' : Char) ∉ l)
    (hne : L ≠ []) : splitNL (joinNL L) = L := by
  induction L with
  | nil => exact absurd rfl hne
  | cons a rest ih =>
    cases rest with
    | nil =>
      show splitCh '\n' a = [a]
      exact splitCh_no_sep '\n' a (hL a (by simp))
    | cons b rest2 =>
      show splitCh '\n' (a ++ '\n' :: joinNL (b :: rest2)) = a :: b :: rest2
      rw [splitCh_sep_append '\n' a (joinNL (b :: rest2)),
        splitCh_no_sep '\n' a (hL a (by simp))]
      have := ih (fun l hl => hL l (by simp [hl])) (by simp)
      rw [show splitNL (joinNL (b :: rest2)) = splitCh '\n' (joinNL (b :: rest2)) from rfl]
        at this
      rw [this]
      rfl

/-! ### Lemmas about the vocabulary-line matcher -/

theorem dropWhile_head_not (p : Char → Bool) (l : Str) (a : Char) (r : List Char)
    (h : l.dropWhile p = a :: r) : p a = false := by
  induction l with
  | nil => simp at h
  | cons x xs ih =>
    by_cases hx : p x
    · rw [List.dropWhile_cons, if_pos hx] at h
      exact ih h
    · rw [List.dropWhile_cons, if_neg hx] at h
      injection h with h1 _
      rw [← h1]
      simpa using hx

theorem trimLeft_eq_self (t : Str)
    (hth : ∀ c, t.head? = some c → isWS c = false) : trimLeft t = t := by
  cases t with
  | nil => rfl
  | cons c r =>
    have := hth c rfl
    simp [trimLeft, List.dropWhile_cons, this]

theorem trimRight_eq_self (t : Str)
    (htl : ∀ c, t.getLast? = some c → isWS c = false) : trimRight t = t := by
  unfold trimRight
  cases hrev : t.reverse with
  | nil =>
    have : t = [] := by simpa using congrArg List.reverse hrev
    simp [this]
  | cons c rr =>
    have hgl : t.getLast? = some c := by
      rw [List.getLast?_eq_head?_reverse, hrev]
      rfl
    have := htl c hgl
    rw [List.dropWhile_cons, if_neg (by simp [this]), ← hrev, List.reverse_reverse]

theorem trimS_eq_self (t : Str)
    (hth : ∀ c, t.head? = some c → isWS c = false)
    (htl : ∀ c, t.getLast? = some c → isWS c = false) : trimS t = t := by
  unfold trimS
  rw [trimLeft_eq_self t hth, trimRight_eq_self t htl]

theorem trimS_trimLeft (d : Str) : trimS (trimLeft d) = trimS d := by
  show trimRight (trimLeft (trimLeft d)) = trimRight (trimLeft d)
  unfold trimLeft
  rw [List.dropWhile_idempotent]

/-- Completeness of the tail matcher at the canonical split. -/
theorem matchAfterTerm_complete (w2 w3 d : Str)
    (hw2 : allWS w2) (hw2n : w2 ≠ []) (hw3 : allWS w3) (hw3n : w3 ≠ [])
    (hd : trimLeft d ≠ []) :
    matchAfterTerm (w2 ++ ':' :: ':' :: ':' :: (w3 ++ d)) = some (trimLeft d) := by
  have hcol : isWS ':' = false := by decide
  have h1 : (w2 ++ ':' :: ':' :: ':' :: (w3 ++ d)).takeWhile isWS = w2 := by
    rw [takeWhile_append_all isWS w2 _ hw2]
    simp [List.takeWhile_cons, hcol]
  have h2 : (w2 ++ ':' :: ':' :: ':' :: (w3 ++ d)).dropWhile isWS =
      ':' :: ':' :: ':' :: (w3 ++ d) := by
    rw [dropWhile_append_all isWS w2 _ hw2]
    simp [List.dropWhile_cons, hcol]
  have h3 : (w3 ++ d).takeWhile isWS = w3 ++ d.takeWhile isWS :=
    takeWhile_append_all isWS w3 d hw3
  have h4 : (w3 ++ d).dropWhile isWS = d.dropWhile isWS :=
    dropWhile_append_all isWS w3 d hw3
  simp only [matchAfterTerm, h1, h2]
  rw [if_neg hw2n]
  have hpre : (":::".toList).isPrefixOf (':' :: ':' :: ':' :: (w3 ++ d)) = true := by
    simp [List.isPrefixOf]
  rw [if_pos hpre]
  have hdrop : (':' :: ':' :: ':' :: (w3 ++ d)).drop 3 = w3 ++ d := rfl
  rw [hdrop, h3, h4]
  rw [if_neg (by simp [hw3n])]
  have hd2 : List.dropWhile isWS d ≠ [] := hd
  rw [if_pos hd2]
  rfl

/-- The tail matcher fails whenever `:::` is not a prefix of the input with
its leading whitespace removed. -/
theorem matchAfterTerm_none (s : Str)
    (h : (":::".toList).isPrefixOf (s.dropWhile isWS) = false) :
    matchAfterTerm s = none := by
  simp only [matchAfterTerm]
  by_cases h1 : s.takeWhile isWS = []
  · rw [if_pos h1]
  · rw [if_neg h1, h]
    simp

/-- The tail matcher fails at every split point strictly inside the term:
`q` is a non-empty suffix of the term `t`, whose last character is not
whitespace and which does not contain `:::`. -/
theorem matchAfterTerm_none_mid (q w2 Z t : Str)
    (hq : q ≠ []) (hqt : q <:+ t)
    (htl : ∀ c, t.getLast? = some c → isWS c = false)
    (ht3 : ¬ ((":::".toList) <:+: t))
    (hw2 : allWS w2) (hw2n : w2 ≠ []) :
    matchAfterTerm (q ++ (w2 ++ Z)) = none := by
  have hcol : isWS ':' = false := by decide
  have hlast : ∀ c, q.getLast? = some c → isWS c = false := by
    intro c hc
    apply htl
    rcases hqt with ⟨u, hu⟩
    rw [← hu, List.getLast?_append_of_ne_nil u hq]
    exact hc
  have hq2 : q.dropWhile isWS ≠ [] := by
    intro hcon
    have hall : ∀ x ∈ q, isWS x = true := List.dropWhile_eq_nil_iff.mp hcon
    rcases List.eq_nil_or_concat q with hnil | ⟨ys, a, hy⟩
    · exact hq hnil
    · have ha : q.getLast? = some a := by
        rw [hy, List.concat_eq_append, List.getLast?_concat]
      have hmem : a ∈ q := by
        rw [hy, List.concat_eq_append]
        simp
      have h1 := hlast a ha
      rw [hall a hmem] at h1
      simp at h1
  obtain ⟨c1, q2, hdq⟩ : ∃ c1 q2, q.dropWhile isWS = c1 :: q2 := by
    cases hdq : q.dropWhile isWS with
    | nil => exact absurd hdq hq2
    | cons c1 q2 => exact ⟨c1, q2, rfl⟩
  have hq_split : q = q.takeWhile isWS ++ (c1 :: q2) := by
    rw [← hdq, List.takeWhile_append_dropWhile]
  have htw : ∀ a ∈ q.takeWhile isWS, isWS a = true := fun a ha =>
    List.mem_takeWhile_imp ha
  have hc1 : isWS c1 = false := dropWhile_head_not isWS q c1 q2 hdq
  have hdrop : (q ++ (w2 ++ Z)).dropWhile isWS = c1 :: (q2 ++ (w2 ++ Z)) := by
    conv_lhs => rw [hq_split]
    rw [List.append_assoc, dropWhile_append_all isWS _ _ htw]
    simp [List.dropWhile_cons, hc1]
  apply matchAfterTerm_none
  rw [hdrop]
  rcases w2 with _ | ⟨wh, wt⟩
  · exact absurd rfl hw2n
  have hwh : isWS wh = true := hw2 wh (by simp)
  by_contra hcon
  have hpt : (":::".toList).isPrefixOf (c1 :: (q2 ++ (wh :: wt ++ Z))) = true := by
    cases hb : (":::".toList).isPrefixOf (c1 :: (q2 ++ (wh :: wt ++ Z))) with
    | false => exact absurd hb hcon
    | true => rfl
  have hpre : [':', ':', ':'] <+: c1 :: (q2 ++ (wh :: wt ++ Z)) := by
    have h2 := List.isPrefixOf_iff_prefix.mp hpt
    simpa using h2
  rcases List.cons_prefix_cons.mp hpre with ⟨hc1e, hpre2⟩
  rcases q2 with _ | ⟨c2, q2b⟩
  · simp only [List.nil_append, List.cons_append] at hpre2
    rcases List.cons_prefix_cons.mp hpre2 with ⟨hwhe, _⟩
    rw [← hwhe, hcol] at hwh
    exact absurd hwh Bool.false_ne_true
  · simp only [List.cons_append] at hpre2
    rcases List.cons_prefix_cons.mp hpre2 with ⟨hc2e, hpre3⟩
    rcases q2b with _ | ⟨c3, q2c⟩
    · simp only [List.nil_append, List.cons_append] at hpre3
      rcases List.cons_prefix_cons.mp hpre3 with ⟨hwhe, _⟩
      rw [← hwhe, hcol] at hwh
      exact absurd hwh Bool.false_ne_true
    · simp only [List.cons_append] at hpre3
      rcases List.cons_prefix_cons.mp hpre3 with ⟨hc3e, _⟩
      apply ht3
      have hp3 : [':', ':', ':'] <+: c1 :: c2 :: c3 :: q2c := by
        refine ⟨q2c, ?_⟩
        simp [← hc1e, ← hc2e, ← hc3e]
      have hsuf : (c1 :: c2 :: c3 :: q2c) <:+ q := by
        rw [← hdq]
        exact List.dropWhile_suffix isWS
      have hinft : [':', ':', ':'] <:+: t :=
        (List.IsPrefix.isInfix hp3).trans
          ((List.IsSuffix.isInfix hsuf).trans (List.IsSuffix.isInfix hqt))
      simpa using hinft

theorem tryTerm_cons (a : Str) (c : Char) (rest : Str) :
    tryTerm a (c :: rest) =
      match matchAfterTerm rest with
      | some d => some (a ++ [c], d)
      | none => tryTerm (a ++ [c]) rest := rfl

/-- The lazy group takes the first split point at which the rest of the
pattern matches. -/
theorem tryTerm_finds (v dcap : Str) (hv : matchAfterTerm v = some dcap) :
    ∀ u a : Str, u ≠ [] →
      (∀ p q, u = p ++ q → p ≠ [] → q ≠ [] → matchAfterTerm (q ++ v) = none) →
      tryTerm a (u ++ v) = some (a ++ u, dcap) := by
  intro u
  induction u with
  | nil =>
    intro a h _
    exact absurd rfl h
  | cons c u2 ih =>
    intro a _ hmid
    cases u2 with
    | nil =>
      show tryTerm a (c :: v) = some (a ++ [c], dcap)
      simp [tryTerm, hv]
    | cons c2 u3 =>
      show tryTerm a (c :: ((c2 :: u3) ++ v)) = some (a ++ (c :: c2 :: u3), dcap)
      have hfail : matchAfterTerm ((c2 :: u3) ++ v) = none :=
        hmid [c] (c2 :: u3) rfl (by simp) (by simp)
      have h2 := ih (a ++ [c]) (by simp)
        (fun p q hpq hp hq => hmid (c :: p) q (by simp [hpq]) (by simp) hq)
      have h3 : ((a ++ [c]) ++ (c2 :: u3) : Str) = a ++ (c :: c2 :: u3) := by simp
      rw [tryTerm_cons, hfail]
      rw [h3] at h2
      exact h2

/-- Completeness: a line of the canonical form
`- <term> ::: <definition>` (with arbitrary whitespace runs) is matched,
capturing the term and the definition stripped of its leading whitespace.
The term must not itself contain `:::` and must not begin or end in
whitespace; the definition must contain a non-whitespace character. -/
theorem parseVocabLine_complete (w1 t w2 w3 d : Str)
    (hw1 : allWS w1) (hw1n : w1 ≠ [])
    (hw2 : allWS w2) (hw2n : w2 ≠ [])
    (hw3 : allWS w3) (hw3n : w3 ≠ [])
    (htn : t ≠ [])
    (hth : ∀ c, t.head? = some c → isWS c = false)
    (htl : ∀ c, t.getLast? = some c → isWS c = false)
    (ht3 : ¬ ((":::".toList) <:+: t))
    (hd : trimLeft d ≠ []) :
    parseVocabLine
        ('-' :: (w1 ++ (t ++ (w2 ++ ':' :: ':' :: ':' :: (w3 ++ d))))) =
      some (t, trimLeft d) := by
  obtain ⟨th, tt, htc⟩ : ∃ th tt, t = th :: tt := by
    cases t with
    | nil => exact absurd rfl htn
    | cons th tt => exact ⟨th, tt, rfl⟩
  have hthw : isWS th = false := hth th (by rw [htc]; rfl)
  have htake :
      (w1 ++ (t ++ (w2 ++ ':' :: ':' :: ':' :: (w3 ++ d)))).takeWhile isWS = w1 := by
    rw [takeWhile_append_all isWS w1 _ hw1, htc]
    simp [List.takeWhile_cons, hthw]
  have hdrop2 :
      (w1 ++ (t ++ (w2 ++ ':' :: ':' :: ':' :: (w3 ++ d)))).dropWhile isWS =
        t ++ (w2 ++ ':' :: ':' :: ':' :: (w3 ++ d)) := by
    rw [dropWhile_append_all isWS w1 _ hw1, htc]
    simp [List.dropWhile_cons, hthw]
  have hvmatch :
      matchAfterTerm (w2 ++ ':' :: ':' :: ':' :: (w3 ++ d)) = some (trimLeft d) :=
    matchAfterTerm_complete w2 w3 d hw2 hw2n hw3 hw3n hd
  have hmid : ∀ p q, t = p ++ q → p ≠ [] → q ≠ [] →
      matchAfterTerm (q ++ (w2 ++ ':' :: ':' :: ':' :: (w3 ++ d))) = none := by
    intro p q hpq hp hq
    exact matchAfterTerm_none_mid q w2 (':' :: ':' :: ':' :: (w3 ++ d)) t hq
      ⟨p, hpq.symm⟩ htl ht3 hw2 hw2n
  have htry :
      tryTerm [] (t ++ (w2 ++ ':' :: ':' :: ':' :: (w3 ++ d))) =
        some (t, trimLeft d) := by
    have := tryTerm_finds _ (trimLeft d) hvmatch t [] htn hmid
    simpa using this
  simp only [parseVocabLine, if_pos rfl]
  rw [htake, if_neg hw1n, hdrop2]
  obtain ⟨c0, rw1, hrev⟩ : ∃ c0 rw1, w1.reverse = c0 :: rw1 := by
    cases hrev : w1.reverse with
    | nil => exact absurd (by simpa using congrArg List.reverse hrev) hw1n
    | cons c0 rw1 => exact ⟨c0, rw1, rfl⟩
  rw [hrev]
  simp [tryW1Rev, htry]

/-- Soundness of the tail matcher: a successful match decomposes the input
as whitespace, `:::`, whitespace, and a non-empty capture. -/
theorem matchAfterTerm_sound (s dcap : Str) (h : matchAfterTerm s = some dcap) :
    ∃ w2 w3, allWS w2 ∧ w2 ≠ [] ∧ allWS w3 ∧ w3 ≠ [] ∧ dcap ≠ [] ∧
      s = w2 ++ ':' :: ':' :: ':' :: (w3 ++ dcap) := by
  simp only [matchAfterTerm] at h
  by_cases h1 : s.takeWhile isWS = []
  · rw [if_pos h1] at h
    exact absurd h (by simp)
  · rw [if_neg h1] at h
    by_cases h2 : (":::".toList).isPrefixOf (s.dropWhile isWS) = true
    · rw [if_pos h2] at h
      obtain ⟨s3, hs3⟩ := List.isPrefixOf_iff_prefix.mp h2
      have hsplit : s = s.takeWhile isWS ++
          (':' :: ':' :: ':' :: s3) := by
        conv_lhs => rw [← List.takeWhile_append_dropWhile (p := isWS) (l := s)]
        rw [← hs3]
        rfl
      have hdrop3 : (s.dropWhile isWS).drop 3 = s3 := by
        rw [← hs3]
        rfl
      rw [hdrop3] at h
      have htwws : ∀ a ∈ s.takeWhile isWS, isWS a = true := fun a ha =>
        List.mem_takeWhile_imp ha
      have hw3ws : ∀ a ∈ s3.takeWhile isWS, isWS a = true := fun a ha =>
        List.mem_takeWhile_imp ha
      by_cases h3 : s3.takeWhile isWS = []
      · rw [if_pos h3] at h
        exact absurd h (by simp)
      · rw [if_neg h3] at h
        by_cases h4 : s3.dropWhile isWS ≠ []
        · rw [if_pos h4] at h
          have hdc : dcap = s3.dropWhile isWS := by
            injection h with h5
            exact h5.symm
          refine ⟨s.takeWhile isWS, s3.takeWhile isWS, htwws, h1, hw3ws, h3,
            hdc ▸ h4, ?_⟩
          rw [hdc]
          conv_lhs => rw [hsplit]
          rw [List.takeWhile_append_dropWhile]
        · rw [if_neg h4] at h
          have hs3all : s3.dropWhile isWS = [] := by
            by_contra hcon
            exact h4 hcon
          cases hrev : (s3.takeWhile isWS).reverse with
          | nil =>
            rw [hrev] at h
            exact absurd h (by simp)
          | cons c tail =>
            cases tail with
            | nil =>
              rw [hrev] at h
              exact absurd h (by simp)
            | cons c2 rr =>
              rw [hrev] at h
              have hdc : dcap = [c] := by
                injection h with h5
                exact h5.symm
              have hw3eq : s3.takeWhile isWS = rr.reverse ++ [c2] ++ [c] := by
                have := congrArg List.reverse hrev
                simpa [List.append_assoc] using this
              have hs3eq : s3 = s3.takeWhile isWS := by
                conv_lhs =>
                  rw [← List.takeWhile_append_dropWhile (p := isWS) (l := s3)]
                rw [hs3all]
                simp
              refine ⟨s.takeWhile isWS, rr.reverse ++ [c2], htwws, h1, ?_, by simp,
                by simp [hdc], ?_⟩
              · intro a ha
                apply hw3ws
                rw [hw3eq]
                simp only [List.mem_append] at ha ⊢
                tauto
              · have hs3f : s3 = rr.reverse ++ [c2] ++ [c] := hs3eq.trans hw3eq
                conv_lhs => rw [hsplit, hs3f]
                simp [hdc, List.append_assoc]
    · rw [if_neg h2] at h
      exact absurd h (by simp)

/-- Soundness of the lazy-group scan. -/
theorem tryTerm_sound : ∀ (s a t dcap : Str), tryTerm a s = some (t, dcap) →
    ∃ u v, s = u ++ v ∧ u ≠ [] ∧ t = a ++ u ∧ matchAfterTerm v = some dcap := by
  intro s
  induction s with
  | nil =>
    intro a t dcap h
    simp [tryTerm] at h
  | cons c rest ih =>
    intro a t dcap h
    simp only [tryTerm] at h
    cases hm : matchAfterTerm rest with
    | some d2 =>
      rw [hm] at h
      simp at h
      exact ⟨[c], rest, by simp, by simp, by simp [← h.1], by rw [hm, h.2]⟩
    | none =>
      rw [hm] at h
      obtain ⟨u, v, huv, hu, ht, hv⟩ := ih (a ++ [c]) t dcap h
      exact ⟨c :: u, v, by simp [huv], by simp,
        by simp [ht, List.append_assoc], hv⟩

/-- Soundness of the leading-whitespace backtracking. -/
theorem tryW1Rev_sound : ∀ (rw1 s t dcap : Str),
    tryW1Rev rw1 s = some (t, dcap) →
    ∃ hi lo, rw1 = hi ++ lo ∧ lo ≠ [] ∧
      tryTerm [] (hi.reverse ++ s) = some (t, dcap) := by
  intro rw1
  induction rw1 with
  | nil =>
    intro s t dcap h
    simp [tryW1Rev] at h
  | cons c rest ih =>
    intro s t dcap h
    simp only [tryW1Rev] at h
    cases hm : tryTerm [] s with
    | some r =>
      rw [hm] at h
      simp at h
      refine ⟨[], c :: rest, by simp, by simp, ?_⟩
      simp only [List.reverse_nil, List.nil_append]
      rw [hm, h]
    | none =>
      rw [hm] at h
      have h2 : (if rest = [] then none else tryW1Rev rest (c :: s)) =
          some (t, dcap) := h
      by_cases hr : rest = []
      · rw [if_pos hr] at h2
        exact absurd h2 (by simp)
      · rw [if_neg hr] at h2
        obtain ⟨hi, lo, hsplit, hlo, htt⟩ := ih (c :: s) t dcap h2
        refine ⟨c :: hi, lo, by simp [hsplit], hlo, ?_⟩
        simpa [List.append_assoc] using htt

/-- Soundness: any line matched by the vocabulary regex has the shape
`- <term> ::: <definition>`. -/
theorem parseVocabLine_sound (l t dcap : Str)
    (h : parseVocabLine l = some (t, dcap)) :
    ∃ w1 w2 w3, allWS w1 ∧ w1 ≠ [] ∧ t ≠ [] ∧ allWS w2 ∧ w2 ≠ [] ∧
      allWS w3 ∧ w3 ≠ [] ∧ dcap ≠ [] ∧
      l = '-' :: (w1 ++ (t ++ (w2 ++ ':' :: ':' :: ':' :: (w3 ++ dcap)))) := by
  rcases l with _ | ⟨c0, rest⟩
  · simp [parseVocabLine] at h
  · simp only [parseVocabLine] at h
    by_cases hc0 : c0 = '-'
    · rw [if_pos hc0] at h
      subst hc0
      by_cases hw1 : rest.takeWhile isWS = []
      · rw [if_pos hw1] at h
        exact absurd h (by simp)
      · rw [if_neg hw1] at h
        obtain ⟨hi, lo, hsplit, hlo, htt⟩ := tryW1Rev_sound _ _ _ _ h
        obtain ⟨u, v, huv, hu, ht, hv⟩ := tryTerm_sound _ _ _ _ htt
        obtain ⟨w2, w3, hw2, hw2n, hw3, hw3n, hdn, hveq⟩ :=
          matchAfterTerm_sound v dcap hv
        have htw : rest.takeWhile isWS = lo.reverse ++ hi.reverse := by
          have := congrArg List.reverse hsplit
          simpa using this
        have hloq : ∀ a ∈ lo.reverse, isWS a = true := by
          intro a ha
          apply List.mem_takeWhile_imp (p := isWS) (l := rest)
          rw [htw]
          simp only [List.mem_append]
          exact Or.inl ha
        refine ⟨lo.reverse, w2, w3, hloq, by simpa using hlo, by simp [ht, hu],
          hw2, hw2n, hw3, hw3n, hdn, ?_⟩
        have hrest : rest = rest.takeWhile isWS ++ rest.dropWhile isWS :=
          (List.takeWhile_append_dropWhile (p := isWS) (l := rest)).symm
        rw [hrest, htw, ht, ← hveq]
        simp only [List.append_assoc, List.cons.injEq, true_and]
        rw [← huv]
        simp [List.append_assoc]
    · rw [if_neg hc0] at h
      exact absurd h (by simp)

/-- A line of the canonical vocabulary form stores exactly
`term ↦ trim(definition)`. -/
theorem parseLineStep_canonical (m : AList) (w1 t w2 w3 d : Str)
    (hw1 : allWS w1) (hw1n : w1 ≠ []) (hw2 : allWS w2) (hw2n : w2 ≠ [])
    (hw3 : allWS w3) (hw3n : w3 ≠ []) (htn : t ≠ [])
    (hth : ∀ c, t.head? = some c → isWS c = false)
    (htl : ∀ c, t.getLast? = some c → isWS c = false)
    (ht3 : ¬ ((":::".toList) <:+: t)) (hd : trimLeft d ≠ []) :
    parseLineStep m
        ('-' :: (w1 ++ (t ++ (w2 ++ ':' :: ':' :: ':' :: (w3 ++ d))))) =
      setA m t (trimS d) := by
  have hp := parseVocabLine_complete w1 t w2 w3 d hw1 hw1n hw2 hw2n hw3 hw3n
    htn hth htl ht3 hd
  simp only [parseLineStep, hp]
  rw [trimS_eq_self t hth htl, trimS_trimLeft]

/-! ### Claim C6: the definition cache reader -/

/-- **C6**.  `parseExistingDefinitions`: (1) empty input yields an empty
map; (2) the global multiline regex scan equals the per-line scan (matches
never cross line boundaries); (3) a non-matching line is silently skipped;
(4) every match decomposes its line as `- <term> ::: <definition>` (dash,
whitespace, lazy term capture, whitespace, three literal colons,
whitespace, definition capture to end of line) and stores both captures
trimmed; (5) conversely every line of that canonical form (term not
containing `:::` and not beginning or ending in whitespace, definition with
a non-whitespace character) stores exactly `term ↦ trim(definition)`. -/
theorem claim_C6_parse :
    (parseExistingDefinitionsS [] = []) ∧
    (∀ L : List Str, (∀ l ∈ L, ('\n' : Char) ∉ l) → L ≠ [] →
      parseExistingDefinitionsS (joinNL L) = parseExistingDefinitionsL L) ∧
    (∀ (m : AList) (l : Str), parseVocabLine l = none → parseLineStep m l = m) ∧
    (∀ (m : AList) (l t dcap : Str), parseVocabLine l = some (t, dcap) →
      parseLineStep m l = setA m (trimS t) (trimS dcap) ∧
      ∃ w1 w2 w3, allWS w1 ∧ w1 ≠ [] ∧ t ≠ [] ∧ allWS w2 ∧ w2 ≠ [] ∧
        allWS w3 ∧ w3 ≠ [] ∧ dcap ≠ [] ∧
        l = '-' :: (w1 ++ (t ++ (w2 ++ ':' :: ':' :: ':' :: (w3 ++ dcap))))) ∧
    (∀ (m : AList) (w1 t w2 w3 d : Str), allWS w1 → w1 ≠ [] → allWS w2 →
      w2 ≠ [] → allWS w3 → w3 ≠ [] → t ≠ [] →
      (∀ c, t.head? = some c → isWS c = false) →
      (∀ c, t.getLast? = some c → isWS c = false) →
      ¬ ((":::".toList) <:+: t) → trimLeft d ≠ [] →
      parseLineStep m
          ('-' :: (w1 ++ (t ++ (w2 ++ ':' :: ':' :: ':' :: (w3 ++ d))))) =
        setA m t (trimS d)) := by
  refine ⟨rfl, ?_, ?_, ?_, ?_⟩
  · intro L hL hne
    show parseExistingDefinitionsL (splitNL (joinNL L)) = parseExistingDefinitionsL L
    rw [splitNL_joinNL L hL hne]
  · intro m l h
    simp [parseLineStep, h]
  · intro m l t dcap h
    refine ⟨by simp [parseLineStep, h], ?_⟩
    exact parseVocabLine_sound l t dcap h
  · intro m w1 t w2 w3 d hw1 hw1n hw2 hw2n hw3 hw3n htn hth htl ht3 hd
    exact parseLineStep_canonical m w1 t w2 w3 d hw1 hw1n hw2 hw2n hw3 hw3n
      htn hth htl ht3 hd

/-- Witness for `claim_C6_parse` at concrete inputs. -/
theorem claim_C6_parse_witness :
    (parseExistingDefinitionsS (joinNL ["- a ::: b".toList, "junk".toList]) =
      parseExistingDefinitionsL ["- a ::: b".toList, "junk".toList]) ∧
    (parseLineStep [] ("junk".toList) = []) ∧
    (parseLineStep []
        ('-' :: ([' '] ++ ("a".toList ++ ([' '] ++ ':' :: ':' :: ':' ::
          ([' '] ++ "b".toList))))) =
      setA [] ("a".toList) (trimS ("b".toList))) :=
  ⟨claim_C6_parse.2.1 ["- a ::: b".toList, "junk".toList] (by decide) (by decide),
   claim_C6_parse.2.2.1 [] ("junk".toList) (by decide),
   claim_C6_parse.2.2.2.2 [] [' '] ("a".toList) [' '] [' '] ("b".toList)
     (by decide) (by decide) (by decide) (by decide) (by decide) (by decide)
     (by decide) (by decide) (by decide) (by decide) (by decide)⟩

/-! ### Claim C10: the placeholder round trip -/

/-- The definition emitted for a vocabulary word by the default template
(src/template/template.ts): `it.definitions.get(highlight.text) || '...'`. -/
def defLineValue (defs : AList) (text : Str) : Str :=
  match lookupA defs text with
  | some d => if d = [] then "...".toList else d
  | none => "...".toList

/-- The vocabulary line emitted by the default template:
`- <%= highlight.text %> ::: <%= definition %>`. -/
def vocabLine (text : Str) (defs : AList) : Str :=
  "- ".toList ++ text ++ " ::: ".toList ++ defLineValue defs text

/-- `wordsNeedingDefinitions` (writeBooks, lines 128-131): the vocabulary
words whose raw text is not a key of the parsed definition cache; exactly
this list is passed to the definition service. -/
def wordsNeedingDefinitions (vocab : List Str) (existing : AList) : List Str :=
  vocab.filter (fun w => ¬ containsA existing w)

/-- **C10**, amended.  For a term that equals its own trim, contains no
`:::`, and is non-empty: when its definition is absent the template emits
`- <term> ::: ...`, `parseExistingDefinitions` maps the term back to
`"..."`, and any term present in the parsed cache is excluded from the
words-needing-definitions list, so the definition service is not invoked
for it on later runs. -/
theorem claim_C10_placeholder (m defs : AList) (t : Str) (vocab : List Str)
    (habs : lookupA defs t = none)
    (htn : t ≠ [])
    (hth : ∀ c, t.head? = some c → isWS c = false)
    (htl : ∀ c, t.getLast? = some c → isWS c = false)
    (ht3 : ¬ ((":::".toList) <:+: t)) :
    defLineValue defs t = "...".toList ∧
    parseLineStep m (vocabLine t defs) = setA m t ("...".toList) ∧
    (∀ m2 : AList, containsA m2 t = true →
      t ∉ wordsNeedingDefinitions vocab m2) := by
  have hval : defLineValue defs t = "...".toList := by
    simp [defLineValue, habs]
  refine ⟨hval, ?_, ?_⟩
  · have hshape : vocabLine t defs =
        '-' :: ([' '] ++ (t ++ ([' '] ++ ':' :: ':' :: ':' ::
          ([' '] ++ "...".toList)))) := by
      rw [vocabLine, hval]
      simp
    rw [hshape]
    rw [parseLineStep_canonical m [' '] t [' '] [' '] ("...".toList)
      (by decide) (by decide) (by decide) (by decide) (by decide) (by decide)
      htn hth htl ht3 (by decide)]
    rw [show trimS ("...".toList) = "...".toList from by decide]
  · intro m2 hm2
    simp only [wordsNeedingDefinitions, List.mem_filter]
    intro hcon
    rw [hm2] at hcon
    simp at hcon

/-- **C10**, counterexample to the claim as stated: for the raw term
`"hello "` (trailing space) the emitted placeholder line parses back under
the trimmed key `"hello"`, so on the next run the raw term is still absent
from the cache, remains in the words-needing-definitions list, and the
definition service is invoked for it again. -/
theorem claim_C10_cex :
    parseLineStep [] (vocabLine ("hello ".toList) []) =
      [("hello".toList, "...".toList)] ∧
    ("hello ".toList) ∈
      wordsNeedingDefinitions ["hello ".toList]
        [("hello".toList, "...".toList)] := by
  decide

/-- Witness for `claim_C10_placeholder` at the term `"hello"`. -/
theorem claim_C10_placeholder_witness :
    defLineValue [] ("hello".toList) = "...".toList ∧
    parseLineStep [] (vocabLine ("hello".toList) []) =
      setA [] ("hello".toList) ("...".toList) ∧
    ("hello".toList) ∉
      wordsNeedingDefinitions ["hello".toList]
        [("hello".toList, "...".toList)] := by
  have h := claim_C10_placeholder [] [] ("hello".toList) ["hello".toList]
    (by decide) (by decide) (by decide) (by decide) (by decide)
  exact ⟨h.1, h.2.1, h.2.2 [("hello".toList, "...".toList)] (by decide)⟩

/-! ### `OllamaService.detectLanguage` (src/services/OllamaService.ts, lines 11-57)

The random-sample branch (more than 50 words) calls `Math.random` and is
not modelled; it is exposed as an oracle parameter `sampler`, and the
theorems below stay on the deterministic branch (at most 50 words, where
the code uses the word list itself).  `wordScore`/`frenchScore` are
computed by the source but only logged, never used in the returned value,
so they are omitted.  The float comparison `accentRatio >= 0.3` is modelled
as `3 * totalWords ≤ 10 * wordsWithAccents`: for `totalWords ≤ 50` the
double rounding of `wordsWithAccents / totalWords` and of the literal `0.3`
never crosses the rational threshold, so the two tests agree. -/

/-- The fixed accent character class `[àâäæçéèêëïîôùûüÿœ]`. -/
def accentChars : Str := "àâäæçéèêëïîôùûüÿœ".toList

/-- JS `String.prototype.length`: the number of UTF-16 code units. -/
def jsLen (s : Str) : Nat :=
  (s.map (fun c => if 0x10000 ≤ c.toNat then 2 else 1)).sum

/-- `String.prototype.toLowerCase`, modelled on ASCII and Latin-1 letters
plus `Œ` and `Ÿ` (identity elsewhere); this covers every character whose
lowercase form lies in the accent set. -/
def jsToLowerChar (c : Char) : Char :=
  let n := c.toNat
  if 0x41 ≤ n ∧ n ≤ 0x5A then Char.ofNat (n + 32)
  else if (0xC0 ≤ n ∧ n ≤ 0xDE) ∧ n ≠ 0xD7 then Char.ofNat (n + 32)
  else if n = 0x152 then Char.ofNat 0x153
  else if n = 0x178 then Char.ofNat 0xFF
  else c

/-- `word.toLowerCase()`. -/
def jsToLower (s : Str) : Str := s.map jsToLowerChar

/-- One iteration of the counting loop of `detectLanguage`: skip short
words, otherwise count the word and whether it contains an accent. -/
def detectStep (acc : Nat × Nat) (w : Str) : Nat × Nat :=
  let lw := trimS (jsToLower w)
  if jsLen lw < 3 then acc
  else (acc.1 + (if lw.any (fun c => c ∈ accentChars) then 1 else 0), acc.2 + 1)

/-- `OllamaService.detectLanguage`. -/
def detectLanguage (sampler : List Str → List Str) (words : List Str) : Str :=
  if words = [] then "en".toList
  else
    let sampleSize := min 50 words.length
    let sampleWords := if words.length ≤ sampleSize then words else sampler words
    let counts := sampleWords.foldl detectStep (0, 0)
    if counts.2 = 0 then "en".toList
    else if 3 * counts.2 ≤ 10 * counts.1 then "fr".toList
    else "en".toList

/-- A term that enters the denominator: trimmed lowercased length at least 3. -/
def qualifiesTerm (w : Str) : Bool := decide (3 ≤ jsLen (trimS (jsToLower w)))

/-- A term that enters the numerator: qualifying and containing an accent. -/
def accentTerm (w : Str) : Bool :=
  qualifiesTerm w && (trimS (jsToLower w)).any (fun c => c ∈ accentChars)

theorem detectStep_skip (a b : Nat) (w : Str)
    (h : jsLen (trimS (jsToLower w)) < 3) : detectStep (a, b) w = (a, b) := by
  simp [detectStep, h]

theorem detectStep_hit (a b : Nat) (w : Str)
    (h : ¬ jsLen (trimS (jsToLower w)) < 3)
    (hacc : (trimS (jsToLower w)).any (fun c => c ∈ accentChars) = true) :
    detectStep (a, b) w = (a + 1, b + 1) := by
  simp [detectStep, h, hacc]

theorem detectStep_miss (a b : Nat) (w : Str)
    (h : ¬ jsLen (trimS (jsToLower w)) < 3)
    (hacc : (trimS (jsToLower w)).any (fun c => c ∈ accentChars) = false) :
    detectStep (a, b) w = (a, b + 1) := by
  simp [detectStep, h, hacc]

theorem detect_counts (words : List Str) :
    ∀ a b : Nat,
      words.foldl detectStep (a, b) =
        (a + words.countP accentTerm, b + words.countP qualifiesTerm) := by
  induction words with
  | nil =>
    intro a b
    simp
  | cons w ws ih =>
    intro a b
    simp only [List.foldl_cons]
    by_cases hq : jsLen (trimS (jsToLower w)) < 3
    · have hqt : qualifiesTerm w = false := by
        simp only [qualifiesTerm, decide_eq_false_iff_not]
        omega
      have hat : accentTerm w = false := by
        simp [accentTerm, hqt]
      rw [detectStep_skip a b w hq, ih a b]
      simp [List.countP_cons, hqt, hat]
    · have hqt : qualifiesTerm w = true := by
        simp only [qualifiesTerm, decide_eq_true_eq]
        omega
      by_cases hacc : (trimS (jsToLower w)).any (fun c => c ∈ accentChars) = true
      · have hat : accentTerm w = true := by
          simp [accentTerm, hqt, hacc]
        rw [detectStep_hit a b w hq hacc, ih (a + 1) (b + 1)]
        simp [List.countP_cons, hqt, hat, Prod.ext_iff] <;> omega
      · have hacc2 : (trimS (jsToLower w)).any (fun c => c ∈ accentChars) = false := by
          simpa using hacc
        have hat : accentTerm w = false := by
          simp only [accentTerm, hqt, Bool.true_and]
          exact hacc2
        rw [detectStep_miss a b w hq hacc2, ih a (b + 1)]
        simp [List.countP_cons, hqt, hat, Prod.ext_iff] <;> omega

/-- **C5**.  `detectLanguage` returns `"en"` on the empty list; for at most
50 terms (the deterministic branch, no random sampling) it returns `"fr"`
exactly when at least one term qualifies (trimmed lowercased length ≥ 3)
and the qualifying-with-accent count is at least 30% of the qualifying
count, and `"en"` otherwise; terms of length < 3 enter neither count. -/
theorem claim_C5_detectLanguage :
    (∀ sampler, detectLanguage sampler [] = "en".toList) ∧
    (∀ sampler (words : List Str), words.length ≤ 50 →
      detectLanguage sampler words =
        if 0 < words.countP qualifiesTerm ∧
            3 * words.countP qualifiesTerm ≤ 10 * words.countP accentTerm then
          "fr".toList
        else "en".toList) := by
  constructor
  · intro sampler
    rfl
  · intro sampler words hlen
    cases hw : words with
    | nil => simp [detectLanguage]
    | cons w ws =>
      rw [← hw]
      have hne : words ≠ [] := by simp [hw]
      have hsz : words.length ≤ min 50 words.length := by
        omega
      simp only [detectLanguage, if_neg hne, if_pos hsz]
      rw [detect_counts words 0 0]
      simp only [Nat.zero_add]
      by_cases hq : words.countP qualifiesTerm = 0
      · simp [hq]
      · rw [if_neg hq]
        by_cases hr : 3 * words.countP qualifiesTerm ≤ 10 * words.countP accentTerm
        · rw [if_pos hr, if_pos ⟨Nat.pos_of_ne_zero hq, hr⟩]
        · rw [if_neg hr, if_neg (fun hcon => hr hcon.2)]

/-- Witness for `claim_C5_detectLanguage` on a concrete French-looking
vocabulary list. -/
theorem claim_C5_witness :
    detectLanguage id ["château".toList, "déjà".toList, "cat".toList] =
      (if 0 < ([("château".toList), ("déjà".toList), ("cat".toList)].countP
            qualifiesTerm) ∧
          3 * ([("château".toList), ("déjà".toList), ("cat".toList)].countP
            qualifiesTerm) ≤
            10 * ([("château".toList), ("déjà".toList), ("cat".toList)].countP
              accentTerm) then
        "fr".toList
      else "en".toList) :=
  claim_C5_detectLanguage.2 id
    ["château".toList, "déjà".toList, "cat".toList] (by decide)

/-! ## C8: the Ollama definition service (`src/unnamed/part_001`) -/

/-- The outcome of one `fetch` to the Ollama API, as seen by
`getVocabularyDefinition`: the request threw, returned a non-OK response,
or returned OK with an optional `response` field in the JSON body. -/
inductive FetchOutcome
  | thrown
  | notOk
  | ok (response : Option Str)

/-- `OllamaService.getVocabularyDefinition`: placeholder `"..."` when no
model is configured, on a thrown error, a non-OK response, a missing
`response` field, or a whitespace-only `response`; otherwise the trimmed
response text.  The network is an `oracle` parameter. -/
def getVocabularyDefinition (modelName : Str)
    (oracle : Str → FetchOutcome) (word : Str) : Str :=
  if modelName = [] then "...".toList
  else
    match oracle word with
    | FetchOutcome.thrown => "...".toList
    | FetchOutcome.notOk => "...".toList
    | FetchOutcome.ok none => "...".toList
    | FetchOutcome.ok (some r) =>
        if trimS r = [] then "...".toList else trimS r

/-- `OllamaService.getVocabularyDefinitions`: one request per word, then
`definitions.set(word, results[index])` in input order. -/
def getVocabularyDefinitions (modelName : Str)
    (oracle : Str → FetchOutcome) (words : List Str) : AList :=
  (words.map (fun w => (w, getVocabularyDefinition modelName oracle w))).foldl
    (fun m p => setA m p.1 p.2) []

/-- The outcomes that make `getVocabularyDefinition` fall back to the
placeholder even when a model is configured. -/
def fetchFails : FetchOutcome → Bool
  | FetchOutcome.thrown => true
  | FetchOutcome.notOk => true
  | FetchOutcome.ok none => true
  | FetchOutcome.ok (some r) => decide (trimS r = [])

theorem lookupA_foldl_setf (f : Str → Str) :
    ∀ (words : List Str) (m0 : AList) (w : Str),
      lookupA (words.foldl (fun m x => setA m x (f x)) m0) w =
        if w ∈ words then some (f w) else lookupA m0 w := by
  intro words
  induction words with
  | nil =>
    intro m0 w
    simp
  | cons x xs ih =>
    intro m0 w
    simp only [List.foldl_cons]
    rw [ih]
    by_cases hx : w ∈ xs
    · simp [hx]
    · by_cases hw : w = x
      · subst hw
        simp [hx, lookupA_setA_self]
      · simp [hx, hw, lookupA_setA_ne m0 x (f x) w hw]

theorem getVocabularyDefinitions_lookup (modelName : Str)
    (oracle : Str → FetchOutcome) (words : List Str) (w : Str) :
    lookupA (getVocabularyDefinitions modelName oracle words) w =
      if w ∈ words then some (getVocabularyDefinition modelName oracle w)
      else none := by
  unfold getVocabularyDefinitions
  rw [List.foldl_map]
  rw [lookupA_foldl_setf (fun x => getVocabularyDefinition modelName oracle x)
    words [] w]
  rfl

theorem getVocabularyDefinition_fail (modelName : Str)
    (oracle : Str → FetchOutcome) (w : Str)
    (h : fetchFails (oracle w) = true) :
    getVocabularyDefinition modelName oracle w = "...".toList := by
  unfold getVocabularyDefinition
  by_cases hm : modelName = []
  · rw [if_pos hm]
  · rw [if_neg hm]
    cases ho : oracle w with
    | thrown => rfl
    | notOk => rfl
    | ok r =>
      cases r with
      | none => rfl
      | some s =>
        rw [ho] at h
        simp only [fetchFails, decide_eq_true_eq] at h
        simp [h]

/-- **C8**.  `getVocabularyDefinitions` returns one entry per input term
(every input term maps to its own request's result, and every key of the
map is an input term); a term's value is the placeholder `"..."` whenever
its request fails (thrown, non-OK, missing or whitespace-only response
text), and is `"..."` for every term when no model name is configured; and
a term's value never depends on the outcomes of other terms' requests. -/
theorem claim_C8_fallback (modelName : Str) (oracle : Str → FetchOutcome)
    (words : List Str) :
    (∀ w, w ∈ words →
        lookupA (getVocabularyDefinitions modelName oracle words) w =
          some (getVocabularyDefinition modelName oracle w)) ∧
    (∀ w, containsA (getVocabularyDefinitions modelName oracle words) w = true →
        w ∈ words) ∧
    (∀ w, w ∈ words → fetchFails (oracle w) = true →
        lookupA (getVocabularyDefinitions modelName oracle words) w =
          some "...".toList) ∧
    (modelName = [] → ∀ w, w ∈ words →
        lookupA (getVocabularyDefinitions modelName oracle words) w =
          some "...".toList) ∧
    (∀ (oracle2 : Str → FetchOutcome) (w0 : Str),
        (∀ w, w ≠ w0 → oracle w = oracle2 w) →
        ∀ w, w ∈ words → w ≠ w0 →
          lookupA (getVocabularyDefinitions modelName oracle words) w =
            lookupA (getVocabularyDefinitions modelName oracle2 words) w) := by
  refine ⟨?_, ?_, ?_, ?_, ?_⟩
  · intro w hw
    rw [getVocabularyDefinitions_lookup, if_pos hw]
  · intro w hc
    by_contra hnw
    rw [containsA, getVocabularyDefinitions_lookup, if_neg hnw] at hc
    simp at hc
  · intro w hw hf
    rw [getVocabularyDefinitions_lookup, if_pos hw,
      getVocabularyDefinition_fail modelName oracle w hf]
  · intro hm w hw
    subst hm
    rw [getVocabularyDefinitions_lookup, if_pos hw]
    simp [getVocabularyDefinition]
  · intro oracle2 w0 hagree w hw hne
    rw [getVocabularyDefinitions_lookup, if_pos hw,
      getVocabularyDefinitions_lookup, if_pos hw]
    unfold getVocabularyDefinition
    rw [hagree w hne]

/-- Witness for `claim_C8_fallback`: with a model configured and every
request returning non-OK, the term `cat` maps to the placeholder. -/
theorem claim_C8_witness :
    lookupA (getVocabularyDefinitions "m".toList
        (fun _ => FetchOutcome.notOk) ["cat".toList]) "cat".toList =
      some "...".toList :=
  (claim_C8_fallback "m".toList (fun _ => FetchOutcome.notOk)
      ["cat".toList]).2.2.1 "cat".toList (by simp) (by rfl)

/-! ## C4: definition monotonicity in `writeBooks` (lines 119-164) -/

/-- The `definitions` map computed by `writeBooks` for one book: a copy of
the parsed cache; when a model is configured and some vocabulary words are
absent from the cache, those words are fetched and each result is `set`
into the copy. -/
def computeDefinitions (modelName : Str) (oracle : Str → FetchOutcome)
    (cache : AList) (bookVocabularyWords : List Str) : AList :=
  let needed := wordsNeedingDefinitions bookVocabularyWords cache
  if modelName ≠ [] ∧ needed ≠ [] then
    (getVocabularyDefinitions modelName oracle needed).foldl
      (fun m p => setA m p.1 p.2) cache
  else cache

theorem mem_keys_iff (m : AList) (w : Str) :
    w ∈ m.map Prod.fst ↔ containsA m w = true := by
  induction m with
  | nil => simp [containsA, lookupA]
  | cons p rest ih =>
    obtain ⟨k, v⟩ := p
    simp only [List.map_cons, List.mem_cons, containsA, lookupA_cons]
    by_cases h : k = w
    · simp [h]
    · have hw : ¬ (w = k) := fun hh => h hh.symm
      simp only [hw, false_or, if_neg h]
      exact ih

theorem mem_keys_setA (m : AList) (k v w : Str) :
    w ∈ (setA m k v).map Prod.fst ↔ w = k ∨ w ∈ m.map Prod.fst := by
  rw [mem_keys_iff, containsA_setA, mem_keys_iff]

theorem keys_setA_nodup (m : AList) (k v : Str)
    (h : (m.map Prod.fst).Nodup) : ((setA m k v).map Prod.fst).Nodup := by
  induction m with
  | nil => simp [setA]
  | cons p rest ih =>
    obtain ⟨k₀, v₀⟩ := p
    simp only [List.map_cons, List.nodup_cons] at h
    by_cases h0 : k₀ = k
    · unfold setA
      rw [if_pos h0]
      simp only [List.map_cons, List.nodup_cons]
      exact h
    · unfold setA
      rw [if_neg h0]
      simp only [List.map_cons, List.nodup_cons]
      refine ⟨?_, ih h.2⟩
      intro hmem
      rw [mem_keys_setA] at hmem
      cases hmem with
      | inl he => exact h0 he
      | inr hm => exact h.1 hm

theorem keys_foldl_set_nodup :
    ∀ (l : List (Str × Str)) (m0 : AList), (m0.map Prod.fst).Nodup →
      ((l.foldl (fun m p => setA m p.1 p.2) m0).map Prod.fst).Nodup := by
  intro l
  induction l with
  | nil =>
    intro m0 h
    exact h
  | cons p t ih =>
    intro m0 h
    simp only [List.foldl_cons]
    exact ih _ (keys_setA_nodup m0 p.1 p.2 h)

theorem lookupA_foldl_set_absent :
    ∀ (l : List (Str × Str)) (m0 : AList) (w : Str), w ∉ l.map Prod.fst →
      lookupA (l.foldl (fun m p => setA m p.1 p.2) m0) w = lookupA m0 w := by
  intro l
  induction l with
  | nil =>
    intro m0 w _
    rfl
  | cons p t ih =>
    intro m0 w hw
    simp only [List.map_cons, List.mem_cons, not_or] at hw
    simp only [List.foldl_cons]
    rw [ih _ w hw.2, lookupA_setA_ne m0 p.1 p.2 w hw.1]

theorem lookupA_foldl_set_present :
    ∀ (l : List (Str × Str)) (m0 : AList) (w : Str),
      (l.map Prod.fst).Nodup → w ∈ l.map Prod.fst →
      lookupA (l.foldl (fun m p => setA m p.1 p.2) m0) w = lookupA l w := by
  intro l
  induction l with
  | nil =>
    intro m0 w _ hw
    simp at hw
  | cons p t ih =>
    intro m0 w hnd hw
    obtain ⟨k, v⟩ := p
    simp only [List.map_cons, List.nodup_cons] at hnd
    simp only [List.map_cons, List.mem_cons] at hw
    simp only [List.foldl_cons]
    by_cases he : w = k
    · subst he
      rw [lookupA_foldl_set_absent t _ w hnd.1, lookupA_setA_self,
        lookupA_cons, if_pos rfl]
    · cases hw with
      | inl h => exact absurd h he
      | inr h =>
        rw [ih _ w hnd.2 h, lookupA_cons, if_neg (fun hh => he hh.symm)]

theorem getVocabularyDefinitions_keys (modelName : Str)
    (oracle : Str → FetchOutcome) (words : List Str) (w : Str) :
    w ∈ (getVocabularyDefinitions modelName oracle words).map Prod.fst ↔
      w ∈ words := by
  rw [mem_keys_iff]
  unfold containsA
  rw [getVocabularyDefinitions_lookup]
  by_cases hx : w ∈ words
  · simp [hx]
  · simp [hx]

theorem getVocabularyDefinitions_nodup (modelName : Str)
    (oracle : Str → FetchOutcome) (words : List Str) :
    ((getVocabularyDefinitions modelName oracle words).map Prod.fst).Nodup := by
  unfold getVocabularyDefinitions
  exact keys_foldl_set_nodup _ [] (by simp)

/-- **C4**.  The definitions map handed to the renderer keeps every cached
entry with its cached value (fetched results never overwrite, nothing is
removed), and every other entry is a vocabulary word of the book absent
from the cache, carrying the value its own fetch produced — so across runs
the map only grows. -/
theorem claim_C4_monotonic (modelName : Str) (oracle : Str → FetchOutcome)
    (cache : AList) (bookVocabularyWords : List Str) :
    (∀ w v, lookupA cache w = some v →
        lookupA (computeDefinitions modelName oracle cache bookVocabularyWords) w
          = some v) ∧
    (∀ w,
        containsA (computeDefinitions modelName oracle cache bookVocabularyWords)
            w = true →
        containsA cache w = true ∨
          (w ∈ bookVocabularyWords ∧
            lookupA (computeDefinitions modelName oracle cache bookVocabularyWords)
                w =
              some (getVocabularyDefinition modelName oracle w))) := by
  by_cases hg : modelName ≠ [] ∧ wordsNeedingDefinitions bookVocabularyWords cache ≠ []
  · have hres : computeDefinitions modelName oracle cache bookVocabularyWords =
        (getVocabularyDefinitions modelName oracle
            (wordsNeedingDefinitions bookVocabularyWords cache)).foldl
          (fun m p => setA m p.1 p.2) cache := by
      simp only [computeDefinitions]
      rw [if_pos hg]
    constructor
    · intro w v hv
      have hcw : containsA cache w = true := by
        simp [containsA, hv]
      have hwn : w ∉ wordsNeedingDefinitions bookVocabularyWords cache := by
        simp [wordsNeedingDefinitions, List.mem_filter, hcw]
      rw [hres, lookupA_foldl_set_absent _ cache w
        (fun hmem => hwn ((getVocabularyDefinitions_keys _ _ _ w).mp hmem))]
      exact hv
    · intro w hc
      by_cases hmem : w ∈ wordsNeedingDefinitions bookVocabularyWords cache
      · right
        constructor
        · have h2 := hmem
          simp [wordsNeedingDefinitions, List.mem_filter] at h2
          exact h2.1
        · rw [hres, lookupA_foldl_set_present _ cache w
            (getVocabularyDefinitions_nodup _ _ _)
            ((getVocabularyDefinitions_keys _ _ _ w).mpr hmem),
            getVocabularyDefinitions_lookup, if_pos hmem]
      · left
        rw [hres] at hc
        unfold containsA at hc
        rw [lookupA_foldl_set_absent _ cache w
          (fun hm => hmem ((getVocabularyDefinitions_keys _ _ _ w).mp hm))] at hc
        exact hc
  · have hres : computeDefinitions modelName oracle cache bookVocabularyWords =
        cache := by
      simp only [computeDefinitions]
      rw [if_neg hg]
    constructor
    · intro w v hv
      rw [hres]
      exact hv
    · intro w hc
      rw [hres] at hc
      exact Or.inl hc

/-- Witness for `claim_C4_monotonic`: a cached term keeps its cached value
even though a new word triggers a (failing) fetch round. -/
theorem claim_C4_witness :
    lookupA (computeDefinitions "m".toList (fun _ => FetchOutcome.notOk)
        [("old".toList, "d1".toList)] ["old".toList, "new".toList])
      "old".toList = some "d1".toList :=
  (claim_C4_monotonic "m".toList (fun _ => FetchOutcome.notOk)
      [("old".toList, "d1".toList)] ["old".toList, "new".toList]).1
    "old".toList "d1".toList (by decide)

/-! ## C3: the legacy line-level merge (`src/unnamed/part_000`, lines 211-317) -/

/-- A bookmark as consumed by the legacy merge: highlight text, note
(empty = absent, matching JS truthiness), and Kobo color code
(1 = vocabulary). -/
structure Bookmark where
  text : Str
  note : Str
  color : Nat
deriving DecidableEq

/-- `/^##\s+Highlights\s*$/`. -/
def isHighlightsHeading (l : Str) : Bool :=
  match l with
  | '#' :: '#' :: rest =>
    decide (rest.takeWhile isWS ≠ []) &&
    decide ((rest.dropWhile isWS).take 10 = "Highlights".toList) &&
    ((rest.dropWhile isWS).drop 10).all isWS
  | _ => false

/-- `/^(##|#|\*Created:|\*\*Note:\*\*)/`: the lines phase 1 refuses to
record as existing highlights. -/
def metaLine (l : Str) : Bool :=
  decide (l.take 1 = ['#']) ||
  decide (l.take 9 = "*Created:".toList) ||
  decide (l.take 9 = "**Note:**".toList)

/-- `Map<string, Set<string>>` lookup (`map.get`). -/
def lookupS : List (Str × List Str) → Str → Option (List Str)
  | [], _ => none
  | (k', v) :: rest, k => if k' = k then some v else lookupS rest k

/-- `map.has` on a `Map<string, Set<string>>`. -/
def containsS (m : List (Str × List Str)) (k : Str) : Bool :=
  (lookupS m k).isSome

/-- `map.set` on a `Map<string, Set<string>>`. -/
def setS : List (Str × List Str) → Str → List Str → List (Str × List Str)
  | [], k, v => [(k, v)]
  | (k', v') :: rest, k, v =>
    if k' = k then (k', v) :: rest else (k', v') :: setS rest k v

/-- `set.add(t)`. -/
def addS (s : List Str) (t : Str) : List Str :=
  if t ∈ s then s else s ++ [t]

/-- `existingHighlights.get(k)?.add(t)`: mutate the set stored at `k`,
no-op when the key is absent. -/
def addToS (m : List (Str × List Str)) (k t : Str) : List (Str × List Str) :=
  match lookupS m k with
  | none => m
  | some s => setS m k (addS s t)

/-- Loop state of the recording pass of `mergeHighlights`:
`inHighlightsSection`, `currentChapter`, `existingHighlights`, `result`. -/
structure MState where
  inH : Bool
  cur : Str
  eh : List (Str × List Str)
  res : List Str

/-- One iteration of the recording pass: enter the Highlights section on
its heading (and `continue`), track chapter headings (creating an empty
set for new chapters), record any other non-blank non-meta line (trimmed)
into the current chapter's set, and push every line to `result`. -/
def recordStep (st : MState) (line : Str) : MState :=
  if isHighlightsHeading line then
    { st with inH := true, res := st.res ++ [line] }
  else
    let st1 :=
      if st.inH && isHeadingL line then
        let c := headingNameL line
        { st with
          cur := c
          eh := if containsS st.eh c then st.eh else setS st.eh c [] }
      else st
    let st2 :=
      if st1.inH && decide (st1.cur ≠ []) && decide (trimS line ≠ []) &&
          ! metaLine line then
        { st1 with eh := addToS st1.eh st1.cur (trimS line) }
      else st1
    { st2 with res := st2.res ++ [line] }

/-- The `newHighlightsToAdd` lines for one chapter: for each highlight
whose raw `text` is not in the chapter's recorded set, a vocabulary card
(`- [ ] **text** :: def #card`, placeholder on a missing or falsy
definition) or a quote line, a blank line, and a note block when the note
is truthy. -/
def renderNew (definitions : AList) (chapterHighlights : List Str)
    (highlights : List Bookmark) : List Str :=
  highlights.foldl (fun acc h =>
    if h.text ∈ chapterHighlights then acc
    else
      let entry :=
        if h.color = 1 then
          let d := match lookupA definitions h.text with
            | none => "...".toList
            | some v => if v = [] then "...".toList else v
          "- [ ] **".toList ++ h.text ++ "** :: ".toList ++ d ++
            " #card".toList
        else "> Quote : ".toList ++ h.text
      acc ++ [entry, []] ++
        (if h.note ≠ [] then ["**Note:** ".toList ++ h.note, []] else []))
    []

/-- `result.findIndex((line, idx) => idx > 0 && /^##\s+/ && trimmed name
matches)`. -/
def chapterIdx (res : List Str) (name : Str) : Option Nat :=
  (res.enum.find? (fun p =>
    decide (0 < p.1) && isHeadingL p.2 &&
    decide (headingNameL p.2 = name))).map Prod.fst

/-- The `insertIndex` while-loop and splice: skip from the line after the
chapter heading to the next heading (or end of file) and insert there. -/
def insertAt (res : List Str) (hIdx : Nat) (newLines : List Str) : List Str :=
  let idx := hIdx + 1 + ((res.drop (hIdx + 1)).takeWhile
    (fun l => ! isHeadingL l)).length
  res.take idx ++ newLines ++ res.drop idx

/-- Phase 2 of `mergeHighlights` for one `[chapterName, highlights]`
entry of `newChapters`. -/
def mergeChapter (definitions : AList) (eh : List (Str × List Str))
    (res : List Str) (chapterName : Str) (highlights : List Bookmark) :
    List Str :=
  let name := trimS chapterName
  let chapterHighlights := match lookupS eh name with
    | none => []
    | some s => s
  let newLines := renderNew definitions chapterHighlights highlights
  if newLines = [] then res
  else
    match chapterIdx res name with
    | some i => insertAt res i newLines
    | none => res ++ ["## ".toList ++ name, []] ++ newLines

/-- `mergeHighlights(existingContent, newChapters, _, definitions, _)`. -/
def mergeHighlights (existingContent : Str)
    (newChapters : List (Str × List Bookmark)) (definitions : AList) : Str :=
  let lines := splitNL existingContent
  let st := lines.foldl recordStep ⟨false, [], [], []⟩
  let res0 :=
    if st.inH then st.res
    else st.res ++ [[], "## Highlights".toList, []]
  let res1 := newChapters.foldl
    (fun r p => mergeChapter definitions st.eh r p.1 p.2) res0
  joinNL res1

/-- **C3**.  Refuted (code bug): phase 1 of `mergeHighlights` records the
RENDERED existing lines (here `> Quote : hello`) but the dedup check
compares the raw highlight text (`hello`) against that set, so re-merging
a document that already contains the highlight under the same chapter
emits its rendered line a second time — two occurrences where the claim
promises at most one. -/
theorem claim_C3_dup :
    "> Quote : hello".toList ∈
        splitNL ("## Highlights\n\n## Ch\n\n> Quote : hello\n").toList ∧
    (splitNL ("## Highlights\n\n## Ch\n\n> Quote : hello\n").toList).count
        "> Quote : hello".toList = 1 ∧
    (splitNL (mergeHighlights
        ("## Highlights\n\n## Ch\n\n> Quote : hello\n").toList
        [("Ch".toList, [⟨"hello".toList, [], 0⟩])] [])).count
      "> Quote : hello".toList = 2 := by
  decide

/-! ## C2: idempotence of the merge on the template's own render

The default template (`src/unnamed/part_002`) and the `finalContent`
computation of `writeBooks` (lines 176-190). -/

/-- The frontmatter deck line:
`cards-deck: <%= it.language === 'fr' ? 'Vocabulaire' : 'Vocabulary' %>`. -/
def cardsDeckLine (language : Str) : Str :=
  "cards-deck: ".toList ++
    (if language = "fr".toList then "Vocabulaire".toList else "Vocabulary".toList)

/-- The lines the template emits for one highlight: a vocabulary card line
(`- text ::: def`) or a quote line, a blank line, and — when the note is
truthy — a note line followed by a blank line. -/
def highlightLines (definitions : AList) (h : Bookmark) : List Str :=
  (if h.color = 1 then [vocabLine h.text definitions]
    else ["> Quote : ".toList ++ h.text]) ++
  [[]] ++
  (if h.note ≠ [] then ["**Note:** ".toList ++ h.note, []] else [])

/-- The lines the template emits for one `[chapterName, highlights]` entry:
heading with trimmed name, blank, start marker, the highlight lines, end
marker, blank. -/
def chapterBlock (definitions : AList) (p : Str × List Bookmark) : List Str :=
  ["## ".toList ++ trimS p.1, [], "%% kobo-highlights-start %%".toList] ++
  (p.2.map (highlightLines definitions)).flatten ++
  ["%% kobo-highlights-end %%".toList, []]

/-- `applyTemplateTransformations` on the default template: the leading
newline of the template literal, the frontmatter, the chapter blocks, the
newline kept after the closing loop tag, and the final `.trim()`.  Each
listed line is followed by one newline in the raw render, hence the two
trailing empty lines. -/
def renderS (language : Str) (definitions : AList)
    (chapters : List (Str × List Bookmark)) : Str :=
  trimS (joinNL ([[], "---".toList, cardsDeckLine language, "---".toList, []] ++
    (chapters.map (chapterBlock definitions)).flatten ++ [[], []]))

/-- The `finalContent` computation of `writeBooks` (lines 176-190): keep
the fresh render unless the file exists and extraction found something. -/
def writeBooksFinalContent (generatedContent : Str) (existing : Option Str) :
    Str :=
  match existing with
  | none => generatedContent
  | some existingContent =>
    let userContent := extractUserContentS existingContent
    if 0 < sizeA userContent ∨ containsA userContent trailingKey = true then
      reinsertUserContentS generatedContent userContent
    else generatedContent

/-- A component string that cannot fake document structure: it contains no
newline and does not contain the end-marker token. -/
def cleanStr (s : Str) : Prop := ('\n' : Char) ∉ s ∧ ¬ endTok <:+: s

/-- Every chapter name, highlight text, note and rendered definition value
of the chapter map is clean. -/
def cleanChapters (defs : AList) (C : List (Str × List Bookmark)) : Prop :=
  ∀ p ∈ C, cleanStr p.1 ∧ ∀ h ∈ p.2,
    cleanStr h.text ∧ cleanStr h.note ∧ cleanStr (defLineValue defs h.text)

instance cleanStr.dec (s : Str) : Decidable (cleanStr s) := by
  unfold cleanStr
  infer_instance

instance cleanChapters.dec (defs : AList) (C : List (Str × List Bookmark)) :
    Decidable (cleanChapters defs C) := by
  unfold cleanChapters
  infer_instance

/-- A chapter block without its final blank line (the shape the last block
takes after the render's `.trim()`). -/
def chapterBlockCore (definitions : AList) (p : Str × List Bookmark) :
    List Str :=
  ["## ".toList ++ trimS p.1, [], "%% kobo-highlights-start %%".toList] ++
  (p.2.map (highlightLines definitions)).flatten ++
  ["%% kobo-highlights-end %%".toList]

theorem chapterBlock_eq (definitions : AList) (p : Str × List Bookmark) :
    chapterBlock definitions p = chapterBlockCore definitions p ++ [[]] := by
  simp [chapterBlock, chapterBlockCore]

theorem joinNL_append (M N : List Str) (hM : M ≠ []) (hN : N ≠ []) :
    joinNL (M ++ N) = joinNL M ++ '\n' :: joinNL N := by
  induction M with
  | nil => exact absurd rfl hM
  | cons a M ih =>
    cases M with
    | nil =>
      cases N with
      | nil => exact absurd rfl hN
      | cons b N => rfl
    | cons a2 M2 =>
      have h1 : joinNL ((a :: a2 :: M2) ++ N) =
          a ++ '\n' :: joinNL ((a2 :: M2) ++ N) := rfl
      rw [h1, ih (by simp)]
      have h2 : joinNL (a :: a2 :: M2) = a ++ '\n' :: joinNL (a2 :: M2) := rfl
      rw [h2]
      simp

theorem trimS_cons_ws (c : Char) (s : Str) (hc : isWS c = true) :
    trimS (c :: s) = trimS s := by
  unfold trimS trimLeft
  rw [List.dropWhile_cons, if_pos hc]

theorem trimRight_append_ws (s : Str) (c : Char) (hc : isWS c = true) :
    trimRight (s ++ [c]) = trimRight s := by
  unfold trimRight
  rw [List.reverse_append]
  simp only [List.reverse_cons, List.reverse_nil, List.nil_append,
    List.singleton_append]
  rw [List.dropWhile_cons, if_pos hc]

theorem trimS_snoc_ws (s : Str) (c : Char) (hc : isWS c = true) :
    trimS (s ++ [c]) = trimS s := by
  unfold trimS
  by_cases hall : ∀ x ∈ s, isWS x = true
  · have h1 : trimLeft (s ++ [c]) = [] := by
      unfold trimLeft
      rw [List.dropWhile_eq_nil_iff]
      intro x hx
      rcases List.mem_append.mp hx with h | h
      · exact hall x h
      · rw [List.mem_singleton.mp h]
        exact hc
    have h2 : trimLeft s = [] := by
      unfold trimLeft
      rw [List.dropWhile_eq_nil_iff]
      exact hall
    rw [h1, h2]
  · have hne : ¬ (s.dropWhile isWS).isEmpty = true := by
      rw [List.isEmpty_iff, List.dropWhile_eq_nil_iff]
      exact hall
    have h3 : trimLeft (s ++ [c]) = trimLeft s ++ [c] := by
      unfold trimLeft
      rw [List.dropWhile_append, if_neg hne]
    rw [h3, trimRight_append_ws _ c hc]

theorem trimRight_prefix (s : Str) : trimRight s <+: s := by
  show (s.reverse.dropWhile isWS).reverse <+: s
  have h := List.dropWhile_suffix (l := s.reverse) isWS
  have h2 := (List.reverse_prefix).mpr h
  rwa [List.reverse_reverse] at h2

theorem trimRight_idem (s : Str) : trimRight (trimRight s) = trimRight s := by
  unfold trimRight
  rw [List.reverse_reverse, List.dropWhile_idempotent]

theorem trimLeft_trimS (s : Str) : trimLeft (trimS s) = trimS s := by
  cases h : trimLeft s with
  | nil =>
    show trimLeft (trimRight (trimLeft s)) = trimRight (trimLeft s)
    rw [h]
    rfl
  | cons a r =>
    have ha : isWS a = false := dropWhile_head_not isWS s a r h
    show trimLeft (trimRight (trimLeft s)) = trimRight (trimLeft s)
    rw [h]
    apply trimLeft_eq_self
    intro d hd
    have hpre : trimRight (a :: r) <+: a :: r := trimRight_prefix _
    cases htr : trimRight (a :: r) with
    | nil =>
      rw [htr] at hd
      simp at hd
    | cons x y =>
      rw [htr] at hd hpre
      obtain ⟨t, ht⟩ := hpre
      have hx : x = a := by
        have := congrArg (fun l => l.head?) ht
        simpa using this
      have hdx : d = x := by
        have hh : x = d := by simpa using hd
        exact hh.symm
      rw [hdx, hx]
      exact ha

theorem trimS_idem (s : Str) : trimS (trimS s) = trimS s := by
  have h1 : trimS (trimS s) = trimRight (trimLeft (trimS s)) := rfl
  rw [h1, trimLeft_trimS]
  show trimRight (trimRight (trimLeft s)) = trimS s
  rw [trimRight_idem]
  rfl

theorem trimS_isInf (s : Str) : trimS s <:+: s := by
  have h1 : trimRight (trimLeft s) <+: trimLeft s := trimRight_prefix _
  have h2 : trimLeft s <:+ s := List.dropWhile_suffix isWS
  exact h1.isInfix.trans h2.isInfix

theorem headingNameL_render (m : Str) :
    headingNameL ("## ".toList ++ m) = trimS m := by
  show trimS ((("## ".toList ++ m).drop 2).dropWhile isWS) = trimS m
  have h1 : ("## ".toList ++ m).drop 2 = ' ' :: m := rfl
  rw [h1, List.dropWhile_cons, if_pos (by decide)]
  exact trimS_trimLeft m

theorem endTok_not_short (p : Str) (hl : p.length < 19) : ¬ endTok <:+: p := by
  intro h
  have h2 := h.length_le
  rw [show endTok.length = 19 from by decide] at h2
  omega

theorem noEnd_pieces (s : Str)
    (h : ∀ p ∈ splitCh ' ' s, ¬ endTok <:+: p) : ¬ endTok <:+: s := by
  intro hinf
  obtain ⟨p, hp, hic⟩ := isInf_splitCh ' ' endTok (by decide) s hinf
  exact h p hp hic

theorem noEnd_heading_line (n : Str) (hn : ¬ endTok <:+: n) :
    ¬ endTok <:+: ("## ".toList ++ n) := by
  apply noEnd_pieces
  intro p hp
  have he : "## ".toList ++ n = ['#', '#'] ++ ' ' :: n := rfl
  rw [he, splitCh_sep_append, splitCh_no_sep ' ' ['#', '#'] (by decide)] at hp
  rcases List.mem_append.mp hp with h | h
  · rw [List.mem_singleton.mp h]
    exact endTok_not_short _ (by decide)
  · intro hic
    exact hn (hic.trans (mem_splitCh_isInf ' ' n p h))

theorem noEnd_vocab_line (t d : Str) (ht : ¬ endTok <:+: t)
    (hd : ¬ endTok <:+: d) :
    ¬ endTok <:+: ("- ".toList ++ t ++ " ::: ".toList ++ d) := by
  apply noEnd_pieces
  intro p hp
  have he : "- ".toList ++ t ++ " ::: ".toList ++ d =
      ['-'] ++ ' ' :: (t ++ ' ' :: ([':', ':', ':'] ++ ' ' :: d)) := by
    simp
  rw [he, splitCh_sep_append, splitCh_no_sep ' ' ['-'] (by decide),
    splitCh_sep_append, splitCh_sep_append,
    splitCh_no_sep ' ' [':', ':', ':'] (by decide)] at hp
  simp only [List.singleton_append, List.mem_cons, List.mem_append] at hp
  rcases hp with rfl | hp | hp
  · exact endTok_not_short _ (by decide)
  · intro hic
    exact ht (hic.trans (mem_splitCh_isInf ' ' t p hp))
  · rcases hp with rfl | hp
    · exact endTok_not_short _ (by decide)
    · intro hic
      exact hd (hic.trans (mem_splitCh_isInf ' ' d p hp))

theorem noEnd_quote_line (t : Str) (ht : ¬ endTok <:+: t) :
    ¬ endTok <:+: ("> Quote : ".toList ++ t) := by
  apply noEnd_pieces
  intro p hp
  have he : "> Quote : ".toList ++ t =
      ['>'] ++ ' ' :: (['Q', 'u', 'o', 't', 'e'] ++ ' ' :: ([':'] ++ ' ' :: t)) :=
    rfl
  rw [he, splitCh_sep_append, splitCh_no_sep ' ' ['>'] (by decide),
    splitCh_sep_append, splitCh_no_sep ' ' ['Q', 'u', 'o', 't', 'e'] (by decide),
    splitCh_sep_append, splitCh_no_sep ' ' [':'] (by decide)] at hp
  simp only [List.singleton_append, List.mem_cons, List.mem_append] at hp
  rcases hp with rfl | hp
  · exact endTok_not_short _ (by decide)
  · rcases hp with rfl | hp
    · exact endTok_not_short _ (by decide)
    · rcases hp with rfl | hp
      · exact endTok_not_short _ (by decide)
      · intro hic
        exact ht (hic.trans (mem_splitCh_isInf ' ' t p hp))

theorem noEnd_note_line (t : Str) (ht : ¬ endTok <:+: t) :
    ¬ endTok <:+: ("**Note:** ".toList ++ t) := by
  apply noEnd_pieces
  intro p hp
  have he : "**Note:** ".toList ++ t =
      ['*', '*', 'N', 'o', 't', 'e', ':', '*', '*'] ++ ' ' :: t := rfl
  rw [he, splitCh_sep_append,
    splitCh_no_sep ' ' ['*', '*', 'N', 'o', 't', 'e', ':', '*', '*']
      (by decide)] at hp
  rcases List.mem_append.mp hp with h | h
  · rw [List.mem_singleton.mp h]
    exact endTok_not_short _ (by decide)
  · intro hic
    exact ht (hic.trans (mem_splitCh_isInf ' ' t p h))

/-- Every line emitted for a clean highlight is neither a heading nor an
end-marker carrier, and contains no newline. -/
theorem highlightLines_facts (defs : AList) (h : Bookmark)
    (h1 : cleanStr h.text) (h2 : cleanStr h.note)
    (h3 : cleanStr (defLineValue defs h.text)) :
    ∀ l ∈ highlightLines defs h,
      isHeadingL l = false ∧ ¬ endTok <:+: l ∧ ('\n' : Char) ∉ l := by
  intro l hl
  unfold highlightLines at hl
  rcases List.mem_append.mp hl with hl1 | hl1
  · rcases List.mem_append.mp hl1 with hl2 | hl2
    · by_cases hc : h.color = 1
      · rw [if_pos hc, List.mem_singleton] at hl2
        subst hl2
        refine ⟨rfl, ?_, ?_⟩
        · exact noEnd_vocab_line h.text (defLineValue defs h.text) h1.2 h3.2
        · intro hmem
          unfold vocabLine at hmem
          simp only [List.mem_append] at hmem
          rcases hmem with ((hm | hm) | hm) | hm
          · exact absurd hm (by decide)
          · exact h1.1 hm
          · exact absurd hm (by decide)
          · exact h3.1 hm
      · rw [if_neg hc, List.mem_singleton] at hl2
        subst hl2
        refine ⟨rfl, noEnd_quote_line h.text h1.2, ?_⟩
        intro hmem
        rcases List.mem_append.mp hmem with hm | hm
        · exact absurd hm (by decide)
        · exact h1.1 hm
    · rw [List.mem_singleton] at hl2
      subst hl2
      exact ⟨rfl, endTok_not_short _ (by decide), by decide⟩
  · by_cases hn : h.note ≠ []
    · rw [if_pos hn, List.mem_cons] at hl1
      rcases hl1 with rfl | hl2
      · refine ⟨rfl, noEnd_note_line h.note h2.2, ?_⟩
        intro hmem
        rcases List.mem_append.mp hmem with hm | hm
        · exact absurd hm (by decide)
        · exact h2.1 hm
      · rw [List.mem_singleton] at hl2
        subst hl2
        exact ⟨rfl, endTok_not_short _ (by decide), by decide⟩
    · rw [if_neg hn] at hl1
      simp at hl1

theorem extractStep_blank_afterEnd (c : Str) (u : List Str) (a : AList) :
    extractStep ⟨c, true, u, a⟩ [] =
      ⟨c, true, if c = [] then u else u ++ [[]], a⟩ := by
  have h1 : isHeadingL [] = false := rfl
  have h2 : ¬ endTok <:+: ([] : Str) := by decide
  have h3 : ¬ startTok <:+: ([] : Str) := by decide
  by_cases hc : c = []
  · subst hc
    simp [extractStep, h1, h2, h3]
  · simp [extractStep, h1, h2, h3, hc]

theorem flushChapter_blank (c : Str) (b : Bool) (u : List Str) (a : AList)
    (hu : u = [] ∨ trimS (joinNL u) = []) :
    flushChapter ⟨c, b, u, a⟩ = a := by
  unfold flushChapter
  rcases hu with rfl | ht
  · simp
  · by_cases hcu : c ≠ [] ∧ u ≠ ([] : List Str)
    · rw [if_pos hcu]
      simp [ht]
    · rw [if_neg hcu]

theorem flushFinal_blank (c : Str) (b : Bool) (u : List Str) (a : AList)
    (hu : u = [] ∨ trimS (joinNL u) = []) :
    flushFinal ⟨c, b, u, a⟩ = a := by
  unfold flushFinal
  rcases hu with rfl | ht
  · simp
  · by_cases hcu : u ≠ ([] : List Str)
    · rw [if_pos hcu]
      simp [ht]
    · rw [if_neg hcu]

theorem cardsDeck_facts (language : Str) :
    isHeadingL (cardsDeckLine language) = false ∧
      ¬ endTok <:+: cardsDeckLine language ∧
      ('\n' : Char) ∉ cardsDeckLine language := by
  unfold cardsDeckLine
  by_cases h : language = "fr".toList
  · rw [if_pos h]
    exact ⟨rfl, by decide, by decide⟩
  · rw [if_neg h]
    exact ⟨rfl, by decide, by decide⟩

/-- The lines between a block's heading and its end marker are quiet for
the extraction loop. -/
theorem blockMid_facts (defs : AList) (p : Str × List Bookmark)
    (hhs : ∀ h ∈ p.2, cleanStr h.text ∧ cleanStr h.note ∧
      cleanStr (defLineValue defs h.text)) :
    ∀ l ∈ ([[], "%% kobo-highlights-start %%".toList] ++
        (p.2.map (highlightLines defs)).flatten),
      isHeadingL l = false ∧ ¬ endTok <:+: l := by
  intro l hl
  rcases List.mem_append.mp hl with h | h
  · rw [List.mem_cons] at h
    rcases h with rfl | h
    · exact ⟨rfl, by decide⟩
    · rw [List.mem_singleton] at h
      subst h
      exact ⟨rfl, by decide⟩
  · obtain ⟨ls, hls, hlin⟩ := List.mem_flatten.mp h
    obtain ⟨hb, hhb, rfl⟩ := List.mem_map.mp hls
    have := highlightLines_facts defs hb (hhs hb hhb).1 (hhs hb hhb).2.1
      (hhs hb hhb).2.2 l hlin
    exact ⟨this.1, this.2.1⟩

theorem chapterBlock_no_nl (defs : AList) (p : Str × List Bookmark)
    (hcl : cleanStr p.1)
    (hhs : ∀ h ∈ p.2, cleanStr h.text ∧ cleanStr h.note ∧
      cleanStr (defLineValue defs h.text)) :
    ∀ l ∈ chapterBlock defs p, ('\n' : Char) ∉ l := by
  intro l hl
  unfold chapterBlock at hl
  rcases List.mem_append.mp hl with h | h
  · rcases List.mem_append.mp h with h | h
    · rw [List.mem_cons] at h
      rcases h with rfl | h
      · intro hmem
        rcases List.mem_append.mp hmem with hm | hm
        · exact absurd hm (by decide)
        · exact hcl.1 ((trimS_isInf p.1).subset hm)
      · rw [List.mem_cons] at h
        rcases h with rfl | h
        · decide
        · rw [List.mem_singleton] at h
          subst h
          decide
    · obtain ⟨ls, hls, hlin⟩ := List.mem_flatten.mp h
      obtain ⟨hb, hhb, rfl⟩ := List.mem_map.mp hls
      exact (highlightLines_facts defs hb (hhs hb hhb).1 (hhs hb hhb).2.1
        (hhs hb hhb).2.2 l hlin).2.2
  · rw [List.mem_cons] at h
    rcases h with rfl | h
    · decide
    · rw [List.mem_singleton] at h
      subst h
      decide

theorem foldl_chapterBlockCore (defs : AList) (p : Str × List Bookmark)
    (st : EState) (hfl : flushChapter st = st.acc) (hcl : cleanStr p.1)
    (hhs : ∀ h ∈ p.2, cleanStr h.text ∧ cleanStr h.note ∧
      cleanStr (defLineValue defs h.text)) :
    (chapterBlockCore defs p).foldl extractStep st =
      ⟨trimS p.1, true, [], st.acc⟩ := by
  have hstep1 : extractStep st ("## ".toList ++ trimS p.1) =
      ⟨trimS p.1, false, [], st.acc⟩ := by
    rw [extractStep_heading st ("## ".toList ++ trimS p.1) rfl,
      headingNameL_render, trimS_idem, hfl]
  have hassoc : chapterBlockCore defs p =
      ("## ".toList ++ trimS p.1) ::
        (([[], "%% kobo-highlights-start %%".toList] ++
          (p.2.map (highlightLines defs)).flatten) ++
          ["%% kobo-highlights-end %%".toList]) := by
    simp [chapterBlockCore]
  rw [hassoc, List.foldl_cons, hstep1, List.foldl_append,
    foldl_extractStep_quiet _ _ _ _ (blockMid_facts defs p hhs)]
  exact extractStep_end_state (trimS p.1) false [] st.acc
    ("%% kobo-highlights-end %%".toList) rfl (by decide)

theorem foldl_chapterBlock_full (defs : AList) (p : Str × List Bookmark)
    (st : EState) (hfl : flushChapter st = st.acc) (hcl : cleanStr p.1)
    (hhs : ∀ h ∈ p.2, cleanStr h.text ∧ cleanStr h.note ∧
      cleanStr (defLineValue defs h.text)) :
    (chapterBlock defs p).foldl extractStep st =
      ⟨trimS p.1, true, if trimS p.1 = [] then [] else [[]], st.acc⟩ := by
  rw [chapterBlock_eq, List.foldl_append,
    foldl_chapterBlockCore defs p st hfl hcl hhs]
  show extractStep ⟨trimS p.1, true, [], st.acc⟩ [] = _
  rw [extractStep_blank_afterEnd]
  by_cases h : trimS p.1 = [] <;> simp [h]

theorem foldl_blocks_join (defs : AList) :
    ∀ (C : List (Str × List Bookmark)) (st : EState),
      (∀ p ∈ C, cleanStr p.1 ∧ ∀ h ∈ p.2, cleanStr h.text ∧ cleanStr h.note ∧
        cleanStr (defLineValue defs h.text)) →
      flushChapter st = st.acc →
      ∃ st', ((C.map (chapterBlock defs)).flatten).foldl extractStep st = st' ∧
        st'.acc = st.acc ∧ flushChapter st' = st'.acc := by
  intro C
  induction C with
  | nil =>
    intro st _ hfl
    exact ⟨st, rfl, rfl, hfl⟩
  | cons p C ih =>
    intro st hcl hfl
    have hp := hcl p (by simp)
    simp only [List.map_cons, List.flatten_cons, List.foldl_append]
    rw [foldl_chapterBlock_full defs p st hfl hp.1 hp.2]
    have hfl1 : flushChapter
        ⟨trimS p.1, true, if trimS p.1 = [] then [] else [[]], st.acc⟩ =
          st.acc := by
      apply flushChapter_blank
      by_cases h : trimS p.1 = []
      · rw [if_pos h]
        exact Or.inl rfl
      · rw [if_neg h]
        exact Or.inr rfl
    obtain ⟨st', h1, h2, h3⟩ :=
      ih ⟨trimS p.1, true, if trimS p.1 = [] then [] else [[]], st.acc⟩
        (fun q hq => hcl q (by simp [hq])) hfl1
    exact ⟨st', h1, h2, h3⟩

/-- Extraction finds nothing in a clean render: every collected line run
trims to blank. -/
theorem extract_render_empty (language : Str) (defs : AList)
    (C : List (Str × List Bookmark)) (hC : C ≠ [])
    (hclean : cleanChapters defs C) :
    extractUserContentS (renderS language defs C) = [] := by
  rcases List.eq_nil_or_concat C with rfl | ⟨C0, p, hCc⟩
  · exact absurd rfl hC
  rw [List.concat_eq_append] at hCc
  subst hCc
  have hp : cleanStr p.1 ∧ ∀ h ∈ p.2, cleanStr h.text ∧ cleanStr h.note ∧
      cleanStr (defLineValue defs h.text) := hclean p (by simp)
  have hcl0 : ∀ q ∈ C0, cleanStr q.1 ∧ ∀ h ∈ q.2, cleanStr h.text ∧
      cleanStr h.note ∧ cleanStr (defLineValue defs h.text) :=
    fun q hq => hclean q (by simp [hq])
  have hflat : ((C0 ++ [p]).map (chapterBlock defs)).flatten =
      (C0.map (chapterBlock defs)).flatten ++
        (chapterBlockCore defs p ++ [[]]) := by
    rw [List.map_append, List.flatten_append]
    simp [chapterBlock_eq]
  have hKsplit : chapterBlockCore defs p =
      (["## ".toList ++ trimS p.1, [],
          "%% kobo-highlights-start %%".toList] ++
        (p.2.map (highlightLines defs)).flatten) ++
        ["%% kobo-highlights-end %%".toList] := by
    simp [chapterBlockCore]
  have hrender : renderS language defs (C0 ++ [p]) =
      joinNL (["---".toList, cardsDeckLine language, "---".toList, []] ++
        ((C0.map (chapterBlock defs)).flatten ++ chapterBlockCore defs p)) := by
    unfold renderS
    rw [hflat]
    have hlist : ([[], "---".toList, cardsDeckLine language, "---".toList,
          []] : List Str) ++
        ((C0.map (chapterBlock defs)).flatten ++
          (chapterBlockCore defs p ++ [[]])) ++ [[], []] =
        [] :: ((["---".toList, cardsDeckLine language, "---".toList, []] ++
          ((C0.map (chapterBlock defs)).flatten ++ chapterBlockCore defs p)) ++
          [[], [], []]) := by
      simp
    rw [hlist]
    have hjoin : joinNL ([] :: ((["---".toList, cardsDeckLine language,
          "---".toList, []] ++
          ((C0.map (chapterBlock defs)).flatten ++ chapterBlockCore defs p)) ++
          [[], [], []])) =
        '\n' :: (joinNL (["---".toList, cardsDeckLine language, "---".toList,
          []] ++
          ((C0.map (chapterBlock defs)).flatten ++ chapterBlockCore defs p)) ++
          ['\n', '\n', '\n']) := by
      have h1 : joinNL ([] :: ((["---".toList, cardsDeckLine language,
            "---".toList, []] ++
            ((C0.map (chapterBlock defs)).flatten ++
              chapterBlockCore defs p)) ++ [[], [], []])) =
          '\n' :: joinNL ((["---".toList, cardsDeckLine language,
            "---".toList, []] ++
            ((C0.map (chapterBlock defs)).flatten ++
              chapterBlockCore defs p)) ++ [[], [], []]) := rfl
      rw [h1, joinNL_append _ _ (by simp) (by simp)]
      rfl
    rw [hjoin, trimS_cons_ws _ _ (by decide)]
    have hsplit3 : joinNL (["---".toList, cardsDeckLine language,
          "---".toList, []] ++
          ((C0.map (chapterBlock defs)).flatten ++ chapterBlockCore defs p)) ++
          ['\n', '\n', '\n'] =
        (((joinNL (["---".toList, cardsDeckLine language, "---".toList, []] ++
          ((C0.map (chapterBlock defs)).flatten ++ chapterBlockCore defs p)) ++
          ['\n']) ++ ['\n']) ++ ['\n']) := by
      simp
    rw [hsplit3, trimS_snoc_ws _ _ (by decide), trimS_snoc_ws _ _ (by decide),
      trimS_snoc_ws _ _ (by decide)]
    apply trimS_eq_self
    · intro c hc
      have hh : (joinNL (["---".toList, cardsDeckLine language, "---".toList,
          []] ++
          ((C0.map (chapterBlock defs)).flatten ++
            chapterBlockCore defs p))).head? = some '-' := rfl
      rw [hh] at hc
      cases hc
      decide
    · intro c hc
      have hXsplit : (["---".toList, cardsDeckLine language, "---".toList,
            []] : List Str) ++
          ((C0.map (chapterBlock defs)).flatten ++ chapterBlockCore defs p) =
          (["---".toList, cardsDeckLine language, "---".toList, []] ++
            ((C0.map (chapterBlock defs)).flatten ++
              (["## ".toList ++ trimS p.1, [],
                "%% kobo-highlights-start %%".toList] ++
                (p.2.map (highlightLines defs)).flatten))) ++
            ["%% kobo-highlights-end %%".toList] := by
        rw [hKsplit]
        simp
      rw [hXsplit, joinNL_append _ _ (by simp) (by simp),
        List.getLast?_append_of_ne_nil _ (by simp)] at hc
      have hg : ('\n' :: joinNL ["%% kobo-highlights-end %%".toList]).getLast? =
          some '%' := by decide
      rw [hg] at hc
      cases hc
      decide
  have hnl : ∀ l ∈ ["---".toList, cardsDeckLine language, "---".toList,
      []] ++ ((C0.map (chapterBlock defs)).flatten ++ chapterBlockCore defs p),
      ('\n' : Char) ∉ l := by
    intro l hl
    rcases List.mem_append.mp hl with h | h
    · rw [List.mem_cons] at h
      rcases h with rfl | h
      · decide
      · rw [List.mem_cons] at h
        rcases h with rfl | h
        · exact (cardsDeck_facts language).2.2
        · rw [List.mem_cons] at h
          rcases h with rfl | h
          · decide
          · rw [List.mem_singleton] at h
            subst h
            decide
    · rcases List.mem_append.mp h with h | h
      · obtain ⟨ls, hls, hlin⟩ := List.mem_flatten.mp h
        obtain ⟨q, hq, rfl⟩ := List.mem_map.mp hls
        exact chapterBlock_no_nl defs q (hcl0 q hq).1 (hcl0 q hq).2 l hlin
      · have hmem : l ∈ chapterBlock defs p := by
          rw [chapterBlock_eq]
          exact List.mem_append.mpr (Or.inl h)
        exact chapterBlock_no_nl defs p hp.1 hp.2 l hmem
  have hsplit : splitNL (renderS language defs (C0 ++ [p])) =
      ["---".toList, cardsDeckLine language, "---".toList, []] ++
        ((C0.map (chapterBlock defs)).flatten ++ chapterBlockCore defs p) := by
    rw [hrender]
    exact splitNL_joinNL _ hnl (by simp)
  unfold extractUserContentS
  rw [hsplit]
  unfold extractL
  rw [List.foldl_append, List.foldl_append]
  have hhdr : (["---".toList, cardsDeckLine language, "---".toList,
      []] : List Str).foldl extractStep ⟨[], false, [], []⟩ =
      ⟨[], false, [], []⟩ := by
    apply foldl_extractStep_quiet
    intro l hl
    rw [List.mem_cons] at hl
    rcases hl with rfl | hl
    · exact ⟨rfl, by decide⟩
    · rw [List.mem_cons] at hl
      rcases hl with rfl | hl
      · exact ⟨(cardsDeck_facts language).1, (cardsDeck_facts language).2.1⟩
      · rw [List.mem_cons] at hl
        rcases hl with rfl | hl
        · exact ⟨rfl, by decide⟩
        · rw [List.mem_singleton] at hl
          subst hl
          exact ⟨rfl, by decide⟩
  rw [hhdr]
  obtain ⟨st', hst', hacc, hflch⟩ := foldl_blocks_join defs C0
    ⟨[], false, [], []⟩ hcl0 (flushChapter_blank [] false [] [] (Or.inl rfl))
  rw [hst', foldl_chapterBlockCore defs p st' hflch hp.1 hp.2]
  rw [hacc]
  exact flushFinal_blank _ _ _ _ (Or.inl rfl)

/-- **C2**, amended.  For every non-empty chapter map whose names, texts,
notes and rendered definition values contain no newline and no end-marker
token, the orchestrator's file-exists path is idempotent on the canonical
render: extraction finds no user content (the only collected lines trim
to blank), so the reinsert branch is skipped and the written text equals
the fresh render byte for byte.  Unrestricted over chapter data the claim
is false: a highlight text containing the end-marker token makes
extraction collect the rest of its block and reinsertion duplicate it. -/
theorem claim_C2_idem (language : Str) (defs : AList)
    (C : List (Str × List Bookmark)) (hC : C ≠ [])
    (hclean : cleanChapters defs C) :
    writeBooksFinalContent (renderS language defs C)
      (some (renderS language defs C)) = renderS language defs C := by
  have hx := extract_render_empty language defs C hC hclean
  simp only [writeBooksFinalContent]
  rw [hx]
  rw [if_neg]
  intro hcon
  rcases hcon with h | h
  · simp [sizeA] at h
  · simp [containsA, lookupA] at h

/-- **C2** counterexample: with a highlight text containing the
end-marker token, the extraction of the render's own text is non-empty
and the merge duplicates part of the document, so the fileExists path is
not idempotent on the render. -/
theorem claim_C2_cex :
    writeBooksFinalContent
      (renderS "en".toList []
        [("Ch".toList,
          [⟨"x kobo-highlights-end x".toList, [], 0⟩,
           ⟨"second".toList, [], 0⟩])])
      (some (renderS "en".toList []
        [("Ch".toList,
          [⟨"x kobo-highlights-end x".toList, [], 0⟩,
           ⟨"second".toList, [], 0⟩])])) ≠
    renderS "en".toList []
      [("Ch".toList,
        [⟨"x kobo-highlights-end x".toList, [], 0⟩,
         ⟨"second".toList, [], 0⟩])] := by
  decide

/-- Witness for `claim_C2_idem` on a one-chapter, one-quote book. -/
theorem claim_C2_witness :
    writeBooksFinalContent (renderS "en".toList []
        [("Ch".toList, [⟨"hello".toList, [], 0⟩])])
      (some (renderS "en".toList []
        [("Ch".toList, [⟨"hello".toList, [], 0⟩])])) =
      renderS "en".toList [] [("Ch".toList, [⟨"hello".toList, [], 0⟩])] :=
  claim_C2_idem "en".toList [] [("Ch".toList, [⟨"hello".toList, [], 0⟩])]
    (by decide) (by decide)

end Kobo
